import Mathlib

/-!
Verification of the ILM policy expand/flatten logic, the CRUD read handlers
and the composite-identifier handling of the `terraform-provider-elasticstack`
repository, shallowly embedded from
`internal/elasticsearch/index/ilm.go` and
`internal/elasticsearch/security/api_key.go`.

Go dynamic values (`interface` values stored in the schema maps) are embedded
as small closed inductive types; Go maps (`map[string]interface` and friends)
are embedded as association lists together with a lookup function `lk`,
an assignment function `mapSet` and a deletion function `eraseKey` that model
Go map indexing, assignment and `delete`.  Go functions that can return error
diagnostics or panic (failed type assertions) return a `GoRes` value.
-/

set_option autoImplicit false

namespace Elasticstack

/-- Scalar values that occur inside a declared ILM action record.  The schema
only produces ints, strings and bools for these fields; `sNull` models a Go
`nil` interface value and `sOther` models a value of any other dynamic type
(hit by the `default` arm of the type switch in `expandAction`). -/
inductive SVal where
  | sInt (n : Int)
  | sStr (s : String)
  | sBool (b : Bool)
  | sNull
  | sOther (tag : String)
  deriving DecidableEq, Repr

/-- A single declared action record, Go `map[string]interface` holding
scalar settings. -/
abbrev ActionRec := List (String × SVal)

/-- A value stored in a declared phase map: the `min_age` key holds a string,
every action key holds a Go slice (whose single element may be `nil`). -/
inductive PVal where
  | pStr (s : String)
  | pList (l : List (Option ActionRec))
  deriving DecidableEq, Repr

/-- One declared phase, Go `map[string]interface` as handed to `expandPhase`
(and as produced by `flattenPhase`). -/
abbrev PhaseRaw := List (String × PVal)

/-- Go map lookup `m[k]` on an association list: the first binding wins. -/
def lk {β : Type} (k : String) : List (String × β) → Option β
  | [] => none
  | (k₁, v) :: rest => if k₁ = k then some v else lk k rest

/-- Go map assignment `m[k] = v`: replace the binding of `k` if present,
otherwise append a new binding. -/
def mapSet {β : Type} (m : List (String × β)) (k : String) (v : β) : List (String × β) :=
  match m with
  | [] => [(k, v)]
  | (k₁, v₁) :: rest => if k₁ = k then (k, v) :: rest else (k₁, v₁) :: mapSet rest k v

/-- Go `delete(m, k)`: remove the binding of `k`. -/
def eraseKey {β : Type} (k : String) (m : List (String × β)) : List (String × β) :=
  m.filter (fun e => !(e.1 = k))

/-- Keys of an association list. -/
def keysOf {β : Type} (m : List (String × β)) : List String :=
  m.map Prod.fst

/-- Severity of a terraform diagnostic. -/
inductive DiagSeverity where
  | error
  | warning
  deriving DecidableEq, Repr

/-- One `diag.Diagnostic` value. -/
structure Diag where
  severity : DiagSeverity
  summary : String
  detail : String
  deriving DecidableEq, Repr

/-- `diag.Diagnostics`. -/
abbrev Diags := List Diag

/-- `diag.Diagnostics.HasError`. -/
def hasError (d : Diags) : Bool :=
  d.any (fun x => match x.severity with | .error => true | .warning => false)

/-- Result of a Go function that may return error diagnostics or panic on a
failed type assertion / nil dereference. -/
inductive GoRes (α : Type) where
  | ok (v : α)
  | err (d : Diags)
  | panicked (msg : String)
  deriving DecidableEq, Repr

/-- Monadic sequencing of `GoRes` computations (the Go
`if diags.HasError() return` early-exit pattern). -/
def GoRes.bind {α β : Type} : GoRes α → (α → GoRes β) → GoRes β
  | .ok v, f => f v
  | .err d, _ => .err d
  | .panicked m, _ => .panicked m

/-- `models.Phase`: the wire representation of one phase of a policy. -/
structure Phase where
  minAge : String := ""
  actions : List (String × ActionRec) := []
  deriving DecidableEq, Repr

/-- `models.Policy`: the wire representation of a whole ILM policy.
`metadata` is an opaque JSON document; its decoding is performed by the
external `encoding/json` collaborator and is carried here as raw text. -/
structure Policy where
  name : String := ""
  metadata : Option String := none
  phases : List (String × Phase) := []
  deriving DecidableEq, Repr

/-- One iteration of the settings loop of `expandAction`: when the setting is
present (`ok`) and non-nil, the type switch copies ints unless zero, strings
unless empty, bools always, and skips every other dynamic type (`default`). -/
def settingStep (ac : ActionRec) (acc : ActionRec) (setting : String) : ActionRec :=
  match lk setting ac with
  | some (SVal.sInt t) => if t ≠ 0 then mapSet acc setting (SVal.sInt t) else acc
  | some (SVal.sStr t) => if t ≠ "" then mapSet acc setting (SVal.sStr t) else acc
  | some (SVal.sBool t) => mapSet acc setting (SVal.sBool t)
  | some SVal.sNull => acc
  | some (SVal.sOther _) => acc
  | none => acc

/-- The inner loop of `expandAction`: walk the allow-listed setting names in
order and copy each present, non-nil setting into the request document `acc`
according to the type switch of `settingStep`. -/
def expandSettings (ac : ActionRec) : List String → ActionRec → ActionRec
  | [], acc => acc
  | setting :: rest, acc => expandSettings ac rest (settingStep ac acc setting)

/-- `expandAction(a, settings...)`: reads `a[0]` and copies the allow-listed
settings out of it.  Every caller guards with `len(a) > 0`, so the
out-of-range panic of `a[0]` on an empty slice is unreachable; a `nil`
element yields the empty document, as in the source. -/
def expandAction (a : List (Option ActionRec)) (settings : List String) : ActionRec :=
  match a.head? with
  | some (some ac) => expandSettings ac settings []
  | _ => []

/-- The common body of the `freeze`, `readonly` and `unfollow` arms of the
switch in `expandPhase`: when `a[0]` is non-nil and its `enabled` field is
true the action is emitted (with an empty body), when `enabled` is false the
action is omitted entirely; a missing or non-bool `enabled` is a failed type
assertion. -/
def expandToggle (a : List (Option ActionRec)) : GoRes (Option ActionRec) :=
  match a.head? with
  | some (some ac) =>
      match lk "enabled" ac with
      | some (SVal.sBool b) => if b then .ok (some (expandAction a [])) else .ok none
      | _ => .panicked "interface conversion: enabled is not a bool"
  | some none => .ok none
  | none => .panicked "index out of range"

/-- The diagnostic raised by the `default` arm of the action switch in
`expandPhase`. -/
def unknownActionDiag (actionName : String) : Diag :=
  ⟨DiagSeverity.error, "Unknown action defined.",
    s!"Configured action \"{actionName}\" is not supported"⟩

/-- One arm of the action-name switch in `expandPhase`: `.ok (some rec)`
inserts `rec` into the phase's action map, `.ok none` inserts nothing, and
an unknown action name yields the fatal validation diagnostic. -/
def expandOne (actionName : String) (a : List (Option ActionRec)) : GoRes (Option ActionRec) :=
  if actionName = "allocate" then
    .ok (some (expandAction a ["number_of_replicas", "include", "exclude", "require"]))
  else if actionName = "delete" then
    .ok (some (expandAction a ["delete_searchable_snapshot"]))
  else if actionName = "forcemerge" then
    .ok (some (expandAction a ["max_num_segments", "index_codec"]))
  else if actionName = "freeze" then
    expandToggle a
  else if actionName = "migrate" then
    .ok (some (expandAction a ["enabled"]))
  else if actionName = "readonly" then
    expandToggle a
  else if actionName = "rollover" then
    .ok (some (expandAction a ["max_age", "max_docs", "max_size", "max_primary_shard_size"]))
  else if actionName = "searchable_snapshot" then
    .ok (some (expandAction a ["snapshot_repository", "force_merge_index"]))
  else if actionName = "set_priority" then
    .ok (some (expandAction a ["priority"]))
  else if actionName = "shrink" then
    .ok (some (expandAction a ["number_of_shards", "max_primary_shard_size"]))
  else if actionName = "unfollow" then
    expandToggle a
  else if actionName = "wait_for_snapshot" then
    .ok (some (expandAction a ["policy"]))
  else
    .err [unknownActionDiag actionName]

/-- The `for actionName, action := range p` loop of `expandPhase`, after
`min_age` has been deleted: each value must be a slice (else the type
assertion panics), empty slices are skipped silently, and the first unknown
action name aborts the whole loop with its diagnostic. -/
def expandActionsLoop : List (String × PVal) → GoRes (List (String × ActionRec))
  | [] => .ok []
  | (_, PVal.pStr _) :: _ => .panicked "interface conversion: action is not a slice"
  | (actionName, PVal.pList a) :: rest =>
      if a.length > 0 then
        match expandOne actionName a with
        | .ok (some rec) =>
            match expandActionsLoop rest with
            | .ok actions => .ok ((actionName, rec) :: actions)
            | .err d => .err d
            | .panicked m => .panicked m
        | .ok none => expandActionsLoop rest
        | .err d => .err d
        | .panicked m => .panicked m
      else expandActionsLoop rest

/-- `expandPhase(p)`.  The Go function mutates its argument by
`delete(p, "min_age")`; the second component of the result is the map as the
caller sees it after the call.  Reading `p["min_age"].(string)` panics when
the key is missing or not a string, in which case the map is still untouched. -/
def expandPhase (p : PhaseRaw) : GoRes Phase × PhaseRaw :=
  match lk "min_age" p with
  | some (PVal.pStr v) =>
      let p' := eraseKey "min_age" p
      let res : GoRes Phase :=
        match expandActionsLoop p' with
        | .ok actions => .ok { minAge := v, actions := actions }
        | .err d => .err d
        | .panicked m => .panicked m
      (res, p')
  | _ => (.panicked "interface conversion: min_age is not a string", p)

/-- The declared ILM resource data used by `expandIlmPolicy`: for each of the
five phase blocks, `some p` models `d.GetOk` returning the single-element
block list whose element is the phase map `p`, `none` models an unset block.
`metadata` carries the raw JSON text (decoded by the external `encoding/json`
collaborator). -/
structure IlmConfig where
  name : String := ""
  metadata : Option String := none
  hot : Option PhaseRaw := none
  warm : Option PhaseRaw := none
  cold : Option PhaseRaw := none
  frozen : Option PhaseRaw := none
  delete : Option PhaseRaw := none
  deriving DecidableEq, Repr

/-- One `if v, ok := d.GetOk(name)` block of `expandIlmPolicy`: expand the
phase if declared and add it under its name, propagating errors immediately. -/
def withPhase (nm : String) (po : Option PhaseRaw) (acc : List (String × Phase)) :
    GoRes (List (String × Phase)) :=
  match po with
  | none => .ok acc
  | some p =>
      match (expandPhase p).1 with
      | .ok ph => .ok (acc ++ [(nm, ph)])
      | .err d => .err d
      | .panicked m => .panicked m

/-- The sequence of the five phase blocks of `expandIlmPolicy`, in source
order. -/
def expandPhasesChain : List (String × Option PhaseRaw) → List (String × Phase) →
    GoRes (List (String × Phase))
  | [], acc => .ok acc
  | (nm, po) :: rest, acc => (withPhase nm po acc).bind (expandPhasesChain rest)

/-- The five phase blocks of a declared config, keyed by name in the order
`expandIlmPolicy` visits them. -/
def namedConfigPhases (c : IlmConfig) : List (String × Option PhaseRaw) :=
  [("hot", c.hot), ("warm", c.warm), ("cold", c.cold), ("frozen", c.frozen),
    ("delete", c.delete)]

/-- `expandIlmPolicy(d)`: build the policy name, metadata and the map of
expanded phases, aborting on the first failing phase. -/
def expandIlmPolicy (c : IlmConfig) : GoRes Policy :=
  (expandPhasesChain (namedConfigPhases c) []).bind
    (fun phs => .ok { name := c.name, metadata := c.metadata, phases := phs })

/-- Outcome of `resourceIlmPut`: either the handler returned diagnostics (or
panicked) before reaching the cluster, or it sent `PutLifecycle` with the
expanded policy document. -/
inductive PutOutcome where
  | failed (d : Diags)
  | panicked (msg : String)
  | sentPolicy (p : Policy)
  deriving DecidableEq, Repr

/-- `resourceIlmPut`, up to the `PutLifecycle` call: the composite identifier
is formed locally from the connection context (the `client.ID` collaborator
is a local computation over the connection fingerprint), then the policy is
expanded, and only on success is the request sent to the cluster. -/
def resourceIlmPut (c : IlmConfig) : PutOutcome :=
  match expandIlmPolicy c with
  | .ok policy => .sentPolicy policy
  | .err d => .failed d
  | .panicked m => .panicked m

/-- The local closure `existsAndNotEMpty` of `flattenPhase` (source spelling
kept): the key is present in the declared map and holds a non-empty block
list.  The keys probed are the three toggle action names, which the schema
types as lists, so a string value (which would fail the slice type assertion
in Go) is unreachable. -/
def existsAndNotEMpty (key : String) (m : PhaseRaw) : Bool :=
  match lk key m with
  | some (PVal.pList v) => !v.isEmpty
  | some (PVal.pStr _) => false
  | none => false

/-- The three boolean-toggle action names, in the order the first loop of
`flattenPhase` visits them. -/
def toggleList : List String := ["readonly", "freeze", "unfollow"]

/-- Whether an action name is one of the three boolean-toggle actions
(the `"readonly", "freeze", "unfollow"` switch arm of `flattenPhase`). -/
def isToggleName (k : String) : Bool :=
  k = "readonly" || k = "freeze" || k = "unfollow"

/-- The first loop of `flattenPhase`: for every toggle action declared
non-empty in the in-memory state, store a record under its key.  All these
records alias the one shared `enabled` map, whose final contents is `ef`. -/
def flattenToggles (nsm : PhaseRaw) (ef : ActionRec) :
    List String → PhaseRaw → PhaseRaw
  | [], phase => phase
  | t :: ts, phase =>
      flattenToggles nsm ef ts
        (if existsAndNotEMpty t nsm then mapSet phase t (PVal.pList [some ef]) else phase)

/-- The final contents of the single mutable map `enabled` that `flattenPhase`
allocates once and stores (by reference) under every toggle key it writes, in
both of its loops: the second loop sets it to true once for every toggle
action in the server document `p`, after the first loop set it to false once
for every toggle declared in the in-memory state `nsm`; when neither loop
runs the map stays empty and is never referenced. -/
def enabledFinal (p : Phase) (nsm : PhaseRaw) : ActionRec :=
  if p.actions.any (fun e => isToggleName e.1) then [("enabled", SVal.sBool true)]
  else if toggleList.any (fun t => existsAndNotEMpty t nsm) then
    [("enabled", SVal.sBool false)]
  else []

/-- The second loop of `flattenPhase`: every toggle action found in the
server document stores a record aliasing the shared `enabled` map (final
contents `ef`), every other action stores its own document. -/
def flattenActions (ef : ActionRec) (acts : List (String × ActionRec))
    (phase : PhaseRaw) : PhaseRaw :=
  acts.foldl
    (fun m e =>
      if isToggleName e.1 then mapSet m e.1 (PVal.pList [some ef])
      else mapSet m e.1 (PVal.pList [some e.2]))
    phase

/-- `flattenPhase(phaseName, p, d)`.  `ns` is the `new` component of
`d.GetChange(phaseName)` (the in-memory declared phase), `none` modelling a
nil or empty block list.  Both loops store the same shared `enabled` map
under the toggle keys, so every stored toggle record exposes that map's final
contents `enabledFinal p nsm`.  The function returns the single element of
the `out` slice. -/
def flattenPhase (p : Phase) (ns : Option PhaseRaw) : PhaseRaw :=
  let nsm : PhaseRaw := match ns with | some m => m | none => []
  let ef := enabledFinal p nsm
  let phase0 := flattenToggles nsm ef toggleList []
  let phase1 :=
    if p.minAge ≠ "" then mapSet phase0 "min_age" (PVal.pStr p.minAge) else phase0
  flattenActions ef p.actions phase1

/-- Modelled from the spec: `clients.CompositeId` (package
`internal/clients`, not under `src/`).  Local resource identity is
`<connection-fingerprint>/<server-resource-id>` (spec section 4.3). -/
structure CompositeId where
  clusterUuid : String
  resourceId : String
  deriving DecidableEq, Repr

/-- Modelled from the spec: the `String()` formatter of a composite
identifier, joining the connection fingerprint and the server resource id
with the `/` separator. -/
def formatCompositeId (c : CompositeId) : String :=
  c.clusterUuid ++ "/" ++ c.resourceId

/-- Split a character list at the last occurrence of `sep`, returning the
parts before and after it, or `none` when `sep` does not occur. -/
def splitLast (sep : Char) : List Char → Option (List Char × List Char)
  | [] => none
  | ch :: rest =>
      match splitLast sep rest with
      | some (a, b) => some (ch :: a, b)
      | none => if ch = sep then some ([], rest) else none

/-- The diagnostic reported for a malformed composite identifier. -/
def malformedIdDiag (s : String) : Diag :=
  ⟨DiagSeverity.error, "Wrong resource ID.",
    s!"Resource ID \"{s}\" does not have expected format"⟩

/-- Modelled from the spec: `clients.CompositeIdFromStr` (package
`internal/clients`, not under `src/`).  Parsing splits the identifier at the
separator so that `parse` inverts `format` without loss (spec sections 3 and
4.3); an input missing the separator is reported as a malformed-identifier
error, never a panic. -/
def compositeIdFromStr (s : String) : Except Diags CompositeId :=
  match splitLast '/' s.data with
  | some (a, b) => .ok ⟨⟨a⟩, ⟨b⟩⟩
  | none => .error [malformedIdDiag s]

/-- `models.ApiKey` as returned by the `GetElasticsearchApiKey` collaborator;
the opaque JSON documents are carried as raw text. -/
structure ApiKeyModel where
  name : String := ""
  expiration : String := ""
  metadata : Option String := none
  rolesDescriptors : Option String := none
  deriving DecidableEq, Repr

/-- The observable effect of `resourceSecurityApiKeyRead` on the terraform
state: the resource id after the call and the fields written with `d.Set`. -/
structure ApiKeyReadState where
  finalId : String
  setName : Option String := none
  setExpiration : Option String := none
  deriving DecidableEq, Repr

/-- Outcome of a read handler: diagnostics returned together with the
resulting state, or a Go panic. -/
inductive ApiKeyReadOutcome where
  | finished (diags : Diags) (st : ApiKeyReadState)
  | panicked (msg : String)
  deriving DecidableEq, Repr

/-- `resourceSecurityApiKeyRead`: parse the composite id from the current
resource id, fetch the key (`fetched` is what the `GetElasticsearchApiKey`
collaborator returned), and when the key is reported absent with no
diagnostics, clear the resource id and return success; on error diagnostics
return them unchanged; otherwise set the fields from the fetched key. -/
def resourceSecurityApiKeyRead (currentId : String)
    (fetched : Option ApiKeyModel × Diags) : ApiKeyReadOutcome :=
  match compositeIdFromStr currentId with
  | .error d => .finished d ⟨currentId, none, none⟩
  | .ok compId =>
      let (apikey, diags) := fetched
      if apikey.isNone && diags.isEmpty then .finished diags ⟨"", none, none⟩
      else if hasError diags then .finished diags ⟨currentId, none, none⟩
      else
        match apikey with
        | none => .panicked "invalid memory address or nil pointer dereference"
        | some key =>
            .finished diags ⟨currentId, some compId.resourceId, some key.expiration⟩

/-- One entry of the decoded `GetLifecycle` response body
(`policy` plus `modified_date`). -/
structure IlmApiEntry where
  policy : Policy := {}
  modified : String := ""
  deriving DecidableEq, Repr

/-- The `GetLifecycle` HTTP response as seen by `resourceIlmRead`: status
code plus the decoded body, a map from policy id to its entry. -/
structure HttpResponse where
  statusCode : Nat := 200
  body : List (String × IlmApiEntry) := []
  deriving DecidableEq, Repr

/-- Modelled from the spec: `utils.CheckError` (package `internal/utils`, not
under `src/`).  Remote API errors - any non-2xx HTTP status - are translated
into a reported failure carrying the server's error detail (spec section 7). -/
def checkError (res : HttpResponse) (msg : String) : Diags :=
  if 200 ≤ res.statusCode ∧ res.statusCode ≤ 299 then []
  else [⟨DiagSeverity.error, msg, "HTTP status " ++ toString res.statusCode⟩]

/-- The observable effect of `resourceIlmRead` on the terraform state. -/
structure IlmReadResult where
  diags : Diags
  finalId : String
  modifiedDate : Option String := none
  metadataSet : Option String := none
  phaseSets : List (String × PhaseRaw) := []
  deriving DecidableEq, Repr

/-- `resourceIlmRead`: parse the composite id, check the response status
(`checkError`), decode the body, and set `modified_date`, `metadata` and the
flattened phases found in the server document.  `decl` is the in-memory
declared config consulted by `d.GetChange` inside `flattenPhase`.  There is
no absent-object branch: a 404 response fails `checkError` and is returned
as an error with the resource id left unchanged. -/
def resourceIlmRead (currentId : String) (decl : IlmConfig) (res : HttpResponse) :
    IlmReadResult :=
  match compositeIdFromStr currentId with
  | .error d => ⟨d, currentId, none, none, []⟩
  | .ok compId =>
      let d0 := checkError res "Unable to fetch ILM policy from the cluster."
      if hasError d0 then ⟨d0, currentId, none, none, []⟩
      else
        let ilmDef := (lk compId.resourceId res.body).getD {}
        let flatAt := fun (nm : String) (nso : Option PhaseRaw) =>
          match lk nm ilmDef.policy.phases with
          | some v => [(nm, flattenPhase v nso)]
          | none => ([] : List (String × PhaseRaw))
        ⟨[], currentId, some ilmDef.modified, ilmDef.policy.metadata,
          flatAt "hot" decl.hot ++ flatAt "warm" decl.warm ++ flatAt "cold" decl.cold
            ++ flatAt "frozen" decl.frozen ++ flatAt "delete" decl.delete⟩

/-- The copy-or-omit decision of the type switch in `expandAction`, as a
function of the looked-up dynamic value: `some` is the value stored in the
request document, `none` means the setting is omitted. -/
def settingFilter : Option SVal → Option SVal
  | some (SVal.sInt t) => if t ≠ 0 then some (SVal.sInt t) else none
  | some (SVal.sStr t) => if t ≠ "" then some (SVal.sStr t) else none
  | some (SVal.sBool t) => some (SVal.sBool t)
  | some SVal.sNull => none
  | some (SVal.sOther _) => none
  | none => none

/-- The twelve supported action kinds: the names with a non-default arm in
the switch of `expandPhase`. -/
def isSupportedAction (k : String) : Bool :=
  k = "allocate" || k = "delete" || k = "forcemerge" || k = "freeze" ||
  k = "migrate" || k = "readonly" || k = "rollover" || k = "searchable_snapshot" ||
  k = "set_priority" || k = "shrink" || k = "unfollow" || k = "wait_for_snapshot"

/-- Shape of a toggle action block that the toggle arms of `expandPhase` can
process without a failed type assertion: when the block's first element is a
non-nil record, its `enabled` field is present and a bool. -/
def toggleShapeWF (a : List (Option ActionRec)) : Bool :=
  match a.head? with
  | some (some ac) =>
      match lk "enabled" ac with
      | some (SVal.sBool _) => true
      | _ => false
  | _ => true

/-- Shape of one action-loop entry that `expandPhase` can process without a
failed type assertion: the value is a block list, and toggle blocks satisfy
`toggleShapeWF`. -/
def entryShapeWF : String × PVal → Bool
  | (_, PVal.pStr _) => false
  | (k, PVal.pList a) => if isToggleName k then toggleShapeWF a else true

/-- Shape of a declared phase map that `expandPhase` can process without a
failed type assertion: a string `min_age` and well-shaped action entries. -/
def phaseShapeWF (p : PhaseRaw) : Bool :=
  (match lk "min_age" p with
    | some (PVal.pStr _) => true
    | _ => false) &&
  (eraseKey "min_age" p).all entryShapeWF

/-- Whether an action loop contains an entry with an unsupported action name
whose block list is non-empty (an empty block list is skipped by the
`len(a) > 0` guard before the switch runs). -/
def hasUnknownEntry (l : List (String × PVal)) : Bool :=
  l.any fun e =>
    match e.2 with
    | PVal.pList a => !isSupportedAction e.1 && !a.isEmpty
    | PVal.pStr _ => false

/-- All declared phases of a config are well-shaped. -/
def configPhasesWF (c : IlmConfig) : Bool :=
  (namedConfigPhases c).all fun e =>
    match e.2 with
    | some p => phaseShapeWF p
    | none => true

/-- Some declared phase of a config contains a configured action with an
unsupported name. -/
def configHasUnknown (c : IlmConfig) : Bool :=
  (namedConfigPhases c).any fun e =>
    match e.2 with
    | some p => hasUnknownEntry (eraseKey "min_age" p)
    | none => false

/-- Whether a declared setting value survives the type switch of
`expandAction` unchanged: non-zero ints, non-empty strings and bools do;
zero ints, empty strings, nil values and other dynamic types do not. -/
def goodVal : SVal → Bool
  | SVal.sInt n => n ≠ 0
  | SVal.sStr s => s ≠ ""
  | SVal.sBool _ => true
  | SVal.sNull => false
  | SVal.sOther _ => false

/-- A declared action record is canonical for an allow-list when its keys
occur, in order and without repetition, among the allow-listed setting names
and all its values are `goodVal`.  `expandAction` reproduces such a record
exactly, so canonical records are the ones whose declared and wire forms
coincide. -/
def recCanon : List String → ActionRec → Bool
  | _, [] => true
  | [], _ :: _ => false
  | s :: ss, (k, v) :: rest =>
      if k = s then goodVal v && recCanon ss rest
      else recCanon ss ((k, v) :: rest)

/-- A declared phase entry is canonical when it is a single-element
non-nil block of a supported action whose record is canonical for that
action's allow-list; toggle actions must carry exactly `enabled = true`
(an `enabled = false` toggle is the reconstruction exception the claim
excludes). -/
def canonEntry : String × PVal → Bool
  | (k, PVal.pList [some rec]) =>
      if k = "allocate" then
        recCanon ["number_of_replicas", "include", "exclude", "require"] rec
      else if k = "delete" then recCanon ["delete_searchable_snapshot"] rec
      else if k = "forcemerge" then recCanon ["max_num_segments", "index_codec"] rec
      else if k = "freeze" then rec = [("enabled", SVal.sBool true)]
      else if k = "migrate" then recCanon ["enabled"] rec
      else if k = "readonly" then rec = [("enabled", SVal.sBool true)]
      else if k = "rollover" then
        recCanon ["max_age", "max_docs", "max_size", "max_primary_shard_size"] rec
      else if k = "searchable_snapshot" then
        recCanon ["snapshot_repository", "force_merge_index"] rec
      else if k = "set_priority" then recCanon ["priority"] rec
      else if k = "shrink" then recCanon ["number_of_shards", "max_primary_shard_size"] rec
      else if k = "unfollow" then rec = [("enabled", SVal.sBool true)]
      else if k = "wait_for_snapshot" then recCanon ["policy"] rec
      else false
  | _ => false

/-- The wire action document `expandPhase` produces for one canonical
declared entry: toggles become empty-bodied actions, everything else keeps
its (canonical) record. -/
def canonActRec : String × PVal → String × ActionRec
  | (k, PVal.pList (some rec :: _)) => (k, if isToggleName k then [] else rec)
  | (k, _) => (k, [])

/-- A declared phase map is canonical: unique keys, a string `min_age`
entry, and every action entry canonical. -/
def canonicalPhase (p : PhaseRaw) : Bool :=
  decide ((keysOf p).Nodup) &&
  (match lk "min_age" p with
    | some (PVal.pStr _) => true
    | _ => false) &&
  (eraseKey "min_age" p).all canonEntry

/-- Every declared phase of the config is canonical. -/
def configCanonical (c : IlmConfig) : Bool :=
  (namedConfigPhases c).all fun e =>
    match e.2 with
    | some p => canonicalPhase p
    | none => true

/-- Reading `min_age` out of a declared phase map through the schema: the
field is an optional string whose zero value is the empty string, so a
missing entry reads as `""`. -/
def readMinAge (m : PhaseRaw) : String :=
  match lk "min_age" m with
  | some (PVal.pStr s) => s
  | _ => ""

/-- The action keys of a declared phase map (every key except `min_age`). -/
def actionKeysOf (m : PhaseRaw) : List String :=
  (keysOf m).filter (fun k => !(k = "min_age"))

/-- Equality of two declared phase maps as terraform state: Go maps compare
by key/value (the association-list order is representation only), and the
schema reads an absent `min_age` as its zero value `""`. -/
def phaseStateEquiv (m₁ m₂ : PhaseRaw) : Bool :=
  decide (readMinAge m₁ = readMinAge m₂) &&
  (actionKeysOf m₁ ++ actionKeysOf m₂).all fun k => decide (lk k m₁ = lk k m₂)

/-- The phase produced by a successful `expandPhase` run. -/
def expandPhaseOk (p : PhaseRaw) : Phase :=
  match (expandPhase p).1 with
  | .ok ph => ph
  | _ => {}

/-! ### Concrete inputs used by evaluation theorems -/

/-- The declared config of spec section 8's end-to-end scenario: only a `hot`
phase with a `rollover` block whose `max_age` is `"7d"`; the remaining
rollover settings carry their schema zero values (unset). -/
def rolloverHotConfig : IlmConfig :=
  { name := "my_ilm_policy"
    hot := some [("min_age", PVal.pStr ""),
      ("rollover", PVal.pList [some
        [("max_age", SVal.sStr "7d"), ("max_docs", SVal.sInt 0),
          ("max_size", SVal.sStr ""), ("max_primary_shard_size", SVal.sStr "")]])] }

/-- A canonical declared config used to witness the round-trip property: a
hot phase with `min_age`, a rollover action and an enabled `readonly` toggle. -/
def roundtripConfig : IlmConfig :=
  { name := "rt",
    hot := some [("min_age", PVal.pStr "1d"),
      ("rollover", PVal.pList [some [("max_age", SVal.sStr "7d")]]),
      ("readonly", PVal.pList [some [("enabled", SVal.sBool true)]])] }

/-- A declared cold phase whose in-memory state contains two enabled toggle
blocks, `readonly` and `freeze`. -/
def declaredColdToggles : PhaseRaw :=
  [("min_age", PVal.pStr ""),
    ("readonly", PVal.pList [some [("enabled", SVal.sBool true)]]),
    ("freeze", PVal.pList [some [("enabled", SVal.sBool true)]])]

/-- C6: expanding a declarative policy that declares only a hot phase with a
rollover action whose sole set setting is `max_age = "7d"` produces exactly
the phase map containing the single phase `hot` with the single action
`rollover` carrying the single setting `max_age`; the zero-valued settings
and the empty `min_age` are omitted and no other phase is present. -/
theorem expand_rollover_hot_exact :
    expandIlmPolicy rolloverHotConfig =
      GoRes.ok
        { name := "my_ilm_policy", metadata := none,
          phases := [("hot",
            { minAge := "", actions := [("rollover", [("max_age", SVal.sStr "7d")])] })] } := by
  decide

/-- C1: the claim fails on the code.  `flattenPhase` allocates one `enabled`
map and stores the same reference under every toggle key, so when the
declared state contains `readonly` (dropped by the server) together with a
`freeze` action that the server document still contains, the reconstructed
`readonly` record is overwritten to `enabled:true` by the second loop instead
of keeping the synthetic `enabled:false` the claim requires. -/
theorem flattenPhase_shared_enabled_map_bug :
    lk "readonly"
        (flattenPhase { minAge := "", actions := [("freeze", [])] }
          (some declaredColdToggles))
      = some (PVal.pList [some [("enabled", SVal.sBool true)]]) ∧
    lk "readonly"
        (flattenPhase { minAge := "", actions := [("freeze", [])] }
          (some declaredColdToggles))
      ≠ some (PVal.pList [some [("enabled", SVal.sBool false)]]) := by
  decide

/-! ### Association-list lemmas -/

theorem lk_mapSet {β : Type} (m : List (String × β)) (k k' : String) (v : β) :
    lk k' (mapSet m k v) = if k = k' then some v else lk k' m := by
  induction m with
  | nil => simp only [mapSet, lk]
  | cons e rest ih =>
      obtain ⟨k₁, v₁⟩ := e
      simp only [mapSet]
      by_cases h1 : k₁ = k
      · subst h1
        simp only [if_pos rfl, lk]
        by_cases h2 : k₁ = k'
        · simp [h2]
        · simp [h2]
      · simp only [if_neg h1, lk]
        by_cases h2 : k₁ = k'
        · have hkk' : ¬(k = k') := fun h => h1 (h2.trans h.symm)
          simp [h2, hkk']
        · simp [h2, ih]

theorem lk_eraseKey {β : Type} (m : List (String × β)) (k k' : String) :
    lk k' (eraseKey k m) = if k' = k then none else lk k' m := by
  induction m with
  | nil => simp [eraseKey, lk]
  | cons e rest ih =>
      obtain ⟨k₁, v₁⟩ := e
      by_cases h1 : k₁ = k
      · subst h1
        have he : eraseKey k₁ ((k₁, v₁) :: rest) = eraseKey k₁ rest := by
          simp [eraseKey]
        rw [he, ih]
        by_cases h2 : k' = k₁
        · simp [h2]
        · have h3 : ¬(k₁ = k') := fun h => h2 h.symm
          simp [h2, lk, h3]
      · have he : eraseKey k ((k₁, v₁) :: rest) = (k₁, v₁) :: eraseKey k rest := by
          simp [eraseKey, h1]
        rw [he]
        by_cases h2 : k₁ = k'
        · have h3 : ¬(k' = k) := fun h => h1 (h2.trans h)
          simp [lk, h2, h3]
        · simp [lk, h2, ih]

/-! ### Lemmas about the settings loop of `expandAction` -/

theorem lk_settingStep_self (ac acc : ActionRec) (st : String)
    (h : lk st acc = none) :
    lk st (settingStep ac acc st) = settingFilter (lk st ac) := by
  rcases hv : lk st ac with _ | v
  · simp [settingStep, settingFilter, hv, h]
  · cases v with
    | sInt t =>
        by_cases ht : t = 0 <;>
          simp [settingStep, settingFilter, hv, ht, lk_mapSet, h]
    | sStr t =>
        by_cases ht : t = "" <;>
          simp [settingStep, settingFilter, hv, ht, lk_mapSet, h]
    | sBool t => simp [settingStep, settingFilter, hv, lk_mapSet]
    | sNull => simp [settingStep, settingFilter, hv, h]
    | sOther g => simp [settingStep, settingFilter, hv, h]

theorem lk_settingStep_other (ac acc : ActionRec) (st s : String)
    (h : ¬(st = s)) :
    lk s (settingStep ac acc st) = lk s acc := by
  rcases hv : lk st ac with _ | v
  · simp [settingStep, hv]
  · cases v with
    | sInt t =>
        by_cases ht : t = 0 <;> simp [settingStep, hv, ht, lk_mapSet, h]
    | sStr t =>
        by_cases ht : t = "" <;> simp [settingStep, hv, ht, lk_mapSet, h]
    | sBool t => simp [settingStep, hv, lk_mapSet, h]
    | sNull => simp [settingStep, hv]
    | sOther g => simp [settingStep, hv]

theorem lk_expandSettings (ac : ActionRec) (settings : List String)
    (acc : ActionRec) (s : String) (hnd : settings.Nodup)
    (hfresh : ∀ s' ∈ settings, lk s' acc = none) :
    lk s (expandSettings ac settings acc) =
      if s ∈ settings then settingFilter (lk s ac) else lk s acc := by
  induction settings generalizing acc with
  | nil => simp [expandSettings]
  | cons st ss ih =>
      have hndss : ss.Nodup := hnd.of_cons
      have hst : st ∉ ss := (List.nodup_cons.mp hnd).1
      have hfresh' : ∀ s' ∈ ss, lk s' (settingStep ac acc st) = none := by
        intro s' hs'
        have hne : ¬(st = s') := fun h => hst (h ▸ hs')
        rw [lk_settingStep_other ac acc st s' hne]
        exact hfresh s' (List.mem_cons_of_mem st hs')
      rw [expandSettings, ih (settingStep ac acc st) hndss hfresh']
      by_cases hmem : s ∈ ss
      · simp [hmem, List.mem_cons_of_mem st hmem]
      · by_cases hse : s = st
        · subst hse
          rw [if_neg hmem, lk_settingStep_self ac acc s (hfresh s (List.mem_cons_self s ss))]
          simp
        · have hne : ¬(st = s) := fun h => hse h.symm
          rw [if_neg hmem, lk_settingStep_other ac acc st s hne]
          have : s ∉ st :: ss := by
            intro h
            rcases List.mem_cons.mp h with h | h
            · exact hse h
            · exact hmem h
          simp [this]

theorem lk_expandAction (a : List (Option ActionRec)) (ac : ActionRec)
    (settings : List String) (s : String) (hhead : a.head? = some (some ac))
    (hnd : settings.Nodup) :
    lk s (expandAction a settings) =
      if s ∈ settings then settingFilter (lk s ac) else none := by
  have : expandAction a settings = expandSettings ac settings [] := by
    simp [expandAction, hhead]
  rw [this, lk_expandSettings ac settings [] s hnd (fun s' _ => rfl)]
  simp [lk]

/-- C5: for every action record and allow-listed setting name, `expandAction`
copies the setting into the request document only when its value is not the
zero value of its type: an integer setting equal to 0 and a string setting
equal to the empty string are omitted from the emitted action, a non-zero
integer or non-empty string is copied, and a setting name absent from the
allow-list is never copied. -/
theorem expandAction_allowlist_and_zero_values
    (a : List (Option ActionRec)) (ac : ActionRec) (settings : List String)
    (s : String) (hhead : a.head? = some (some ac)) (hnd : settings.Nodup) :
    (lk s ac = some (SVal.sInt 0) → lk s (expandAction a settings) = none) ∧
    (lk s ac = some (SVal.sStr "") → lk s (expandAction a settings) = none) ∧
    (s ∉ settings → lk s (expandAction a settings) = none) ∧
    (∀ n : Int, n ≠ 0 → s ∈ settings → lk s ac = some (SVal.sInt n) →
      lk s (expandAction a settings) = some (SVal.sInt n)) ∧
    (∀ t : String, t ≠ "" → s ∈ settings → lk s ac = some (SVal.sStr t) →
      lk s (expandAction a settings) = some (SVal.sStr t)) := by
  have key := lk_expandAction a ac settings s hhead hnd
  refine ⟨?_, ?_, ?_, ?_, ?_⟩
  · intro hv
    rw [key, hv]
    simp [settingFilter]
  · intro hv
    rw [key, hv]
    simp [settingFilter]
  · intro hmem
    rw [key, if_neg hmem]
  · intro n hn hmem hv
    rw [key, if_pos hmem, hv]
    simp [settingFilter, hn]
  · intro t ht hmem hv
    rw [key, if_pos hmem, hv]
    simp [settingFilter, ht]

/-- Witness for C5 at a concrete forcemerge record: `max_num_segments = 0` is
omitted and the non-empty `index_codec` string is copied. -/
theorem expandAction_allowlist_and_zero_values_witness :
    (lk "max_num_segments"
        [("max_num_segments", SVal.sInt 0), ("index_codec", SVal.sStr "best_compression")]
        = some (SVal.sInt 0) →
      lk "max_num_segments"
        (expandAction
          [some [("max_num_segments", SVal.sInt 0), ("index_codec", SVal.sStr "best_compression")]]
          ["max_num_segments", "index_codec"]) = none) ∧
    (lk "max_num_segments"
        [("max_num_segments", SVal.sInt 0), ("index_codec", SVal.sStr "best_compression")]
        = some (SVal.sStr "") →
      lk "max_num_segments"
        (expandAction
          [some [("max_num_segments", SVal.sInt 0), ("index_codec", SVal.sStr "best_compression")]]
          ["max_num_segments", "index_codec"]) = none) ∧
    ("max_num_segments" ∉ ["max_num_segments", "index_codec"] →
      lk "max_num_segments"
        (expandAction
          [some [("max_num_segments", SVal.sInt 0), ("index_codec", SVal.sStr "best_compression")]]
          ["max_num_segments", "index_codec"]) = none) ∧
    (∀ n : Int, n ≠ 0 → "max_num_segments" ∈ ["max_num_segments", "index_codec"] →
      lk "max_num_segments"
          [("max_num_segments", SVal.sInt 0), ("index_codec", SVal.sStr "best_compression")]
          = some (SVal.sInt n) →
      lk "max_num_segments"
        (expandAction
          [some [("max_num_segments", SVal.sInt 0), ("index_codec", SVal.sStr "best_compression")]]
          ["max_num_segments", "index_codec"]) = some (SVal.sInt n)) ∧
    (∀ t : String, t ≠ "" → "max_num_segments" ∈ ["max_num_segments", "index_codec"] →
      lk "max_num_segments"
          [("max_num_segments", SVal.sInt 0), ("index_codec", SVal.sStr "best_compression")]
          = some (SVal.sStr t) →
      lk "max_num_segments"
        (expandAction
          [some [("max_num_segments", SVal.sInt 0), ("index_codec", SVal.sStr "best_compression")]]
          ["max_num_segments", "index_codec"]) = some (SVal.sStr t)) :=
  expandAction_allowlist_and_zero_values
    [some [("max_num_segments", SVal.sInt 0), ("index_codec", SVal.sStr "best_compression")]]
    [("max_num_segments", SVal.sInt 0), ("index_codec", SVal.sStr "best_compression")]
    ["max_num_segments", "index_codec"] "max_num_segments" rfl (by decide)

/-- C10: in `expandAction`, boolean settings are never treated as unset: an
allow-listed boolean setting that is present and non-nil is copied even when
false, while a nil value or a value of any dynamic type other than int,
string or bool is silently skipped. -/
theorem expandAction_bool_copied_other_types_skipped
    (a : List (Option ActionRec)) (ac : ActionRec) (settings : List String)
    (s : String) (hhead : a.head? = some (some ac)) (hnd : settings.Nodup) :
    (∀ b : Bool, s ∈ settings → lk s ac = some (SVal.sBool b) →
      lk s (expandAction a settings) = some (SVal.sBool b)) ∧
    (lk s ac = some SVal.sNull → lk s (expandAction a settings) = none) ∧
    (∀ g : String, lk s ac = some (SVal.sOther g) →
      lk s (expandAction a settings) = none) := by
  have key := lk_expandAction a ac settings s hhead hnd
  refine ⟨?_, ?_, ?_⟩
  · intro b hmem hv
    rw [key, if_pos hmem, hv]
    simp [settingFilter]
  · intro hv
    rw [key, hv]
    simp [settingFilter]
  · intro g hv
    rw [key, hv]
    simp [settingFilter]

/-- Witness for C10 at a concrete delete record:
`delete_searchable_snapshot = false` is still emitted. -/
theorem expandAction_bool_copied_other_types_skipped_witness :
    (∀ b : Bool, "delete_searchable_snapshot" ∈ ["delete_searchable_snapshot"] →
      lk "delete_searchable_snapshot" [("delete_searchable_snapshot", SVal.sBool false)]
        = some (SVal.sBool b) →
      lk "delete_searchable_snapshot"
        (expandAction [some [("delete_searchable_snapshot", SVal.sBool false)]]
          ["delete_searchable_snapshot"]) = some (SVal.sBool b)) ∧
    (lk "delete_searchable_snapshot" [("delete_searchable_snapshot", SVal.sBool false)]
        = some SVal.sNull →
      lk "delete_searchable_snapshot"
        (expandAction [some [("delete_searchable_snapshot", SVal.sBool false)]]
          ["delete_searchable_snapshot"]) = none) ∧
    (∀ g : String,
      lk "delete_searchable_snapshot" [("delete_searchable_snapshot", SVal.sBool false)]
        = some (SVal.sOther g) →
      lk "delete_searchable_snapshot"
        (expandAction [some [("delete_searchable_snapshot", SVal.sBool false)]]
          ["delete_searchable_snapshot"]) = none) :=
  expandAction_bool_copied_other_types_skipped
    [some [("delete_searchable_snapshot", SVal.sBool false)]]
    [("delete_searchable_snapshot", SVal.sBool false)]
    ["delete_searchable_snapshot"] "delete_searchable_snapshot" rfl (by decide)

theorem lk_eq_none_of_not_mem {β : Type} (m : List (String × β)) (k : String)
    (h : k ∉ keysOf m) : lk k m = none := by
  induction m with
  | nil => rfl
  | cons e rest ih =>
      obtain ⟨k₁, v₁⟩ := e
      have h1 : ¬(k₁ = k) := fun he => h (by simp [keysOf, he])
      have h2 : k ∉ keysOf rest := fun he => h (by simp [keysOf] at he ⊢; exact Or.inr he)
      simp [lk, h1, ih h2]

theorem keysOf_nodup_eraseKey {β : Type} (m : List (String × β)) (k : String)
    (h : (keysOf m).Nodup) : (keysOf (eraseKey k m)).Nodup := by
  have hsub : List.Sublist (eraseKey k m) m := List.filter_sublist m
  exact List.Nodup.sublist (hsub.map Prod.fst) h

/-- C9: `expandPhase` mutates its input: when the declared phase map holds a
string `min_age`, the map the caller sees after the call has the `min_age`
key deleted, and every other key is left in place with its value. -/
theorem expandPhase_deletes_min_age (p : PhaseRaw) (s : String)
    (h : lk "min_age" p = some (PVal.pStr s)) :
    (expandPhase p).2 = eraseKey "min_age" p ∧
    lk "min_age" (expandPhase p).2 = none ∧
    ∀ k, k ≠ "min_age" → lk k (expandPhase p).2 = lk k p := by
  have h2 : (expandPhase p).2 = eraseKey "min_age" p := by
    simp [expandPhase, h]
  refine ⟨h2, ?_, ?_⟩
  · rw [h2, lk_eraseKey]
    simp
  · intro k hk
    rw [h2, lk_eraseKey]
    simp [hk]

/-- Witness for C9 at a concrete phase map with a `min_age` and a rollover
entry. -/
theorem expandPhase_deletes_min_age_witness :
    lk "min_age" [("min_age", PVal.pStr "7d"),
        ("rollover", PVal.pList [some [("max_age", SVal.sStr "30d")]])]
      = some (PVal.pStr "7d") ∧
    ((expandPhase [("min_age", PVal.pStr "7d"),
          ("rollover", PVal.pList [some [("max_age", SVal.sStr "30d")]])]).2
        = eraseKey "min_age" [("min_age", PVal.pStr "7d"),
            ("rollover", PVal.pList [some [("max_age", SVal.sStr "30d")]])] ∧
      lk "min_age" (expandPhase [("min_age", PVal.pStr "7d"),
          ("rollover", PVal.pList [some [("max_age", SVal.sStr "30d")]])]).2 = none ∧
      ∀ k, k ≠ "min_age" →
        lk k (expandPhase [("min_age", PVal.pStr "7d"),
            ("rollover", PVal.pList [some [("max_age", SVal.sStr "30d")]])]).2
          = lk k [("min_age", PVal.pStr "7d"),
              ("rollover", PVal.pList [some [("max_age", SVal.sStr "30d")]])]) :=
  ⟨rfl, expandPhase_deletes_min_age
    [("min_age", PVal.pStr "7d"),
      ("rollover", PVal.pList [some [("max_age", SVal.sStr "30d")]])] "7d" rfl⟩

/-! ### Lemmas about the action loop of `expandPhase` -/

theorem toggleName_cases (t : String) (h : isToggleName t = true) :
    t = "readonly" ∨ t = "freeze" ∨ t = "unfollow" := by
  have h' : (t = "readonly" ∨ t = "freeze") ∨ t = "unfollow" := by
    simpa [isToggleName] using h
  rcases h' with (h' | h') | h'
  · exact Or.inl h'
  · exact Or.inr (Or.inl h')
  · exact Or.inr (Or.inr h')

theorem expandOne_toggle (t : String) (a : List (Option ActionRec))
    (h : isToggleName t = true) : expandOne t a = expandToggle a := by
  rcases toggleName_cases t h with h' | h' | h' <;> subst h' <;> rfl

theorem length_pos_of_head?_some {α : Type} (a : List α) (x : α)
    (h : a.head? = some x) : a.length > 0 := by
  cases a with
  | nil => simp at h
  | cons y ys => simp

theorem expandActionsLoop_keys_subset (l : List (String × PVal))
    (acts : List (String × ActionRec)) (h : expandActionsLoop l = GoRes.ok acts) :
    ∀ k ∈ keysOf acts, k ∈ keysOf l := by
  induction l generalizing acts with
  | nil =>
      simp only [expandActionsLoop, GoRes.ok.injEq] at h
      subst h
      simp [keysOf]
  | cons e rest ih =>
      obtain ⟨nm, v⟩ := e
      cases v with
      | pStr s => simp [expandActionsLoop] at h
      | pList a =>
          by_cases hlen : a.length > 0
          · rcases h1 : expandOne nm a with vo | d | m
            · cases vo with
              | none =>
                  simp only [expandActionsLoop, if_pos hlen, h1] at h
                  intro k hk
                  exact List.mem_cons_of_mem _ (ih acts h k hk)
              | some rec =>
                  rcases h2 : expandActionsLoop rest with acts' | d | m
                  · simp only [expandActionsLoop, if_pos hlen, h1, h2,
                      GoRes.ok.injEq] at h
                    subst h
                    intro k hk
                    simp only [keysOf, List.map_cons, List.mem_cons] at hk ⊢
                    rcases hk with hk | hk
                    · exact Or.inl hk
                    · exact Or.inr (ih acts' h2 k hk)
                  · simp [expandActionsLoop, if_pos hlen, h1, h2] at h
                  · simp [expandActionsLoop, if_pos hlen, h1, h2] at h
            · simp [expandActionsLoop, if_pos hlen, h1] at h
            · simp [expandActionsLoop, if_pos hlen, h1] at h
          · simp only [expandActionsLoop, if_neg hlen] at h
            intro k hk
            exact List.mem_cons_of_mem _ (ih acts h k hk)

theorem expandActionsLoop_toggle (l : List (String × PVal))
    (acts : List (String × ActionRec)) (t : String)
    (a : List (Option ActionRec)) (ac : ActionRec)
    (hok : expandActionsLoop l = GoRes.ok acts)
    (hnd : (keysOf l).Nodup)
    (hmem : (t, PVal.pList a) ∈ l)
    (htog : isToggleName t = true)
    (hhead : a.head? = some (some ac)) :
    (lk "enabled" ac = some (SVal.sBool false) → lk t acts = none) ∧
    (lk "enabled" ac = some (SVal.sBool true) → lk t acts = some []) := by
  induction l generalizing acts with
  | nil => simp at hmem
  | cons e rest ih =>
      obtain ⟨nm, v⟩ := e
      have hkeys : keysOf ((nm, v) :: rest) = nm :: keysOf rest := rfl
      have hnd' : (nm :: keysOf rest).Nodup := hkeys ▸ hnd
      have hndrest : (keysOf rest).Nodup := hnd'.of_cons
      have hnmrest : nm ∉ keysOf rest := (List.nodup_cons.mp hnd').1
      rcases List.mem_cons.mp hmem with hhd | htl
      · -- the toggle entry is the head of the loop
        cases hhd
        have hlen : a.length > 0 := length_pos_of_head?_some a (some ac) hhead
        constructor
        · intro hlkE
          simp only [expandActionsLoop, if_pos hlen, expandOne_toggle t a htog,
            expandToggle, hhead, hlkE] at hok
          simp only [Bool.false_eq_true, if_false] at hok
          have htnotin : t ∉ keysOf acts := fun hin =>
            hnmrest (expandActionsLoop_keys_subset rest acts hok t hin)
          exact lk_eq_none_of_not_mem acts t htnotin
        · intro hlkE
          have hact : expandAction a [] = [] := by
            simp [expandAction, hhead, expandSettings]
          rcases h2 : expandActionsLoop rest with acts' | d | m
          · simp only [expandActionsLoop, if_pos hlen, expandOne_toggle t a htog,
              expandToggle, hhead, hlkE, if_true, hact, h2, GoRes.ok.injEq] at hok
            subst hok
            simp [lk]
          · simp [expandActionsLoop, if_pos hlen, expandOne_toggle t a htog,
              expandToggle, hhead, hlkE, h2] at hok
          · simp [expandActionsLoop, if_pos hlen, expandOne_toggle t a htog,
              expandToggle, hhead, hlkE, h2] at hok
      · -- the toggle entry is in the tail of the loop
        have htmem : t ∈ keysOf rest := by
          simpa [keysOf] using List.mem_map_of_mem Prod.fst htl
        have htne : ¬(nm = t) := fun he => hnmrest (he ▸ htmem)
        cases v with
        | pStr s => simp [expandActionsLoop] at hok
        | pList a₁ =>
            by_cases hlen : a₁.length > 0
            · rcases h1 : expandOne nm a₁ with vo | d | m
              · cases vo with
                | none =>
                    simp only [expandActionsLoop, if_pos hlen, h1] at hok
                    exact ih acts hok hndrest htl
                | some rec =>
                    rcases h2 : expandActionsLoop rest with acts' | d | m
                    · simp only [expandActionsLoop, if_pos hlen, h1, h2,
                        GoRes.ok.injEq] at hok
                      subst hok
                      have base := ih acts' h2 hndrest htl
                      constructor
                      · intro hlkE
                        simp [lk, htne, base.1 hlkE]
                      · intro hlkE
                        simp [lk, htne, base.2 hlkE]
                    · simp [expandActionsLoop, if_pos hlen, h1, h2] at hok
                    · simp [expandActionsLoop, if_pos hlen, h1, h2] at hok
              · simp [expandActionsLoop, if_pos hlen, h1] at hok
              · simp [expandActionsLoop, if_pos hlen, h1] at hok
            · simp only [expandActionsLoop, if_neg hlen] at hok
              exact ih acts hok hndrest htl

/-- C4: in `expandPhase`, each of the boolean-toggle actions `readonly`,
`freeze` and `unfollow` declared with `enabled = false` is omitted entirely
from the expanded phase's action map, while the same action declared with
`enabled = true` is emitted as an empty-bodied action entry. -/
theorem expandPhase_toggle_enabled (p : PhaseRaw) (t : String)
    (a : List (Option ActionRec)) (ac : ActionRec) (ph : Phase)
    (hnd : (keysOf p).Nodup)
    (hmem : (t, PVal.pList a) ∈ p)
    (htog : isToggleName t = true)
    (hhead : a.head? = some (some ac))
    (hok : (expandPhase p).1 = GoRes.ok ph) :
    (lk "enabled" ac = some (SVal.sBool false) → lk t ph.actions = none) ∧
    (lk "enabled" ac = some (SVal.sBool true) → lk t ph.actions = some []) := by
  rcases hma : lk "min_age" p with _ | pv
  · simp [expandPhase, hma] at hok
  cases pv with
  | pList l0 => simp [expandPhase, hma] at hok
  | pStr v =>
      rcases hloop : expandActionsLoop (eraseKey "min_age" p) with acts | d | m
      case err => simp [expandPhase, hma, hloop] at hok
      case panicked => simp [expandPhase, hma, hloop] at hok
      simp only [expandPhase, hma, hloop, GoRes.ok.injEq] at hok
      have hphact : ph.actions = acts := by rw [← hok]
      have htminage : ¬(t = "min_age") := by
        rcases toggleName_cases t htog with h' | h' | h' <;> subst h' <;> decide
      have hmem' : (t, PVal.pList a) ∈ eraseKey "min_age" p := by
        refine List.mem_filter.mpr ⟨hmem, ?_⟩
        simp [htminage]
      have hnd' : (keysOf (eraseKey "min_age" p)).Nodup := keysOf_nodup_eraseKey p _ hnd
      have base := expandActionsLoop_toggle (eraseKey "min_age" p) acts t a ac hloop
        hnd' hmem' htog hhead
      rw [hphact]
      exact base

/-- Witness for C4 at a concrete cold phase declaring `readonly` with
`enabled = false` and `freeze` with `enabled = true`. -/
theorem expandPhase_toggle_enabled_witness :
    (lk "enabled" [("enabled", SVal.sBool false)] = some (SVal.sBool false) →
      lk "readonly"
        ({ minAge := "", actions := [("freeze", [])] } : Phase).actions = none) ∧
    (lk "enabled" [("enabled", SVal.sBool false)] = some (SVal.sBool true) →
      lk "readonly"
        ({ minAge := "", actions := [("freeze", [])] } : Phase).actions = some []) :=
  expandPhase_toggle_enabled
    [("min_age", PVal.pStr ""),
      ("readonly", PVal.pList [some [("enabled", SVal.sBool false)]]),
      ("freeze", PVal.pList [some [("enabled", SVal.sBool true)]])]
    "readonly" [some [("enabled", SVal.sBool false)]] [("enabled", SVal.sBool false)]
    { minAge := "", actions := [("freeze", [])] }
    (by decide) (by decide) (by decide) rfl (by decide)

/-! ### Composite identifier round trip (C8) and read handlers (C7) -/

theorem splitLast_of_no_sep (sep : Char) (r : List Char) (h : sep ∉ r) :
    splitLast sep r = none := by
  induction r with
  | nil => rfl
  | cons ch rest ih =>
      have h1 : ¬(ch = sep) := fun he => h (he ▸ List.mem_cons_self ch rest)
      have h2 : sep ∉ rest := fun he => h (List.mem_cons_of_mem ch he)
      simp [splitLast, ih h2, h1]

theorem splitLast_append (sep : Char) (c r : List Char) (h : sep ∉ r) :
    splitLast sep (c ++ sep :: r) = some (c, r) := by
  induction c with
  | nil => simp [splitLast, splitLast_of_no_sep sep r h]
  | cons ch c' ih => simp [splitLast, ih]

/-- C8: parsing the formatted composite identifier returns the original
connection fingerprint and server resource id whenever the resource id is
non-empty and free of the separator, and parsing an input missing the
separator yields a reported error value (the total parse function never
panics). -/
theorem composite_id_roundtrip (conn rid s : String) (h1 : rid ≠ "")
    (h2 : '/' ∉ rid.data) (h3 : '/' ∉ s.data) :
    compositeIdFromStr (formatCompositeId ⟨conn, rid⟩) = Except.ok ⟨conn, rid⟩ ∧
    compositeIdFromStr s = Except.error [malformedIdDiag s] := by
  constructor
  · obtain ⟨cl⟩ := conn
    obtain ⟨rl⟩ := rid
    have hdata : (formatCompositeId ⟨⟨cl⟩, ⟨rl⟩⟩).data = cl ++ '/' :: rl := by
      simp [formatCompositeId, String.data_append]
    rw [compositeIdFromStr, hdata, splitLast_append '/' cl rl h2]
  · rw [compositeIdFromStr, splitLast_of_no_sep '/' s.data h3]

/-- Witness for C8 at a concrete connection fingerprint and policy id. -/
theorem composite_id_roundtrip_witness :
    compositeIdFromStr (formatCompositeId ⟨"dXVjZA==", "my-policy"⟩)
        = Except.ok ⟨"dXVjZA==", "my-policy"⟩ ∧
    compositeIdFromStr "no-separator" = Except.error [malformedIdDiag "no-separator"] :=
  composite_id_roundtrip "dXVjZA==" "my-policy" "no-separator" (by decide) (by decide)
    (by decide)

/-- C7: the claim fails on the code for the ILM read handler.  With an absent
policy the cluster answers 404, `CheckError` reports it, and
`resourceIlmRead` returns the error with the resource id left unchanged
instead of clearing it and returning success. -/
theorem ilm_read_absent_is_error :
    hasError (resourceIlmRead "dXVjZA==/my-policy" {} ⟨404, []⟩).diags = true ∧
    (resourceIlmRead "dXVjZA==/my-policy" {} ⟨404, []⟩).finalId = "dXVjZA==/my-policy" := by
  decide

/-- C7 (amended): only the API key read handler treats an absent remote
object as deletion, clearing the local resource identifier and returning
success; the ILM read handler reports the absent policy's non-2xx response
as an error and leaves the resource identifier unchanged. -/
theorem read_absent_object_handling (id : String) (cid : CompositeId)
    (decl : IlmConfig) (res : HttpResponse)
    (hparse : compositeIdFromStr id = Except.ok cid)
    (habsent : res.statusCode = 404) :
    resourceSecurityApiKeyRead id (none, []) =
      ApiKeyReadOutcome.finished [] ⟨"", none, none⟩ ∧
    hasError (resourceIlmRead id decl res).diags = true ∧
    (resourceIlmRead id decl res).finalId = id := by
  have hstatus : ¬(200 ≤ res.statusCode ∧ res.statusCode ≤ 299) := by
    rw [habsent]
    decide
  have hcheck : checkError res "Unable to fetch ILM policy from the cluster."
      = [⟨DiagSeverity.error, "Unable to fetch ILM policy from the cluster.",
          "HTTP status " ++ toString res.statusCode⟩] := by
    simp [checkError, hstatus]
  refine ⟨?_, ?_, ?_⟩
  · simp [resourceSecurityApiKeyRead, hparse]
  · simp [resourceIlmRead, hparse, hcheck, hasError]
  · simp [resourceIlmRead, hparse, hcheck, hasError]

/-- Witness for C7's amended statement at a concrete identifier and a 404
response. -/
theorem read_absent_object_handling_witness :
    resourceSecurityApiKeyRead "dXVjZA==/key-1" (none, []) =
      ApiKeyReadOutcome.finished [] ⟨"", none, none⟩ ∧
    hasError (resourceIlmRead "dXVjZA==/key-1" {} ⟨404, []⟩).diags = true ∧
    (resourceIlmRead "dXVjZA==/key-1" {} ⟨404, []⟩).finalId = "dXVjZA==/key-1" :=
  read_absent_object_handling "dXVjZA==/key-1" ⟨"dXVjZA==", "key-1"⟩ {} ⟨404, []⟩
    rfl rfl

/-! ### Unknown actions abort the whole expansion (C3) -/

theorem expandOne_unknown (k : String) (a : List (Option ActionRec))
    (h : isSupportedAction k = false) :
    expandOne k a = GoRes.err [unknownActionDiag k] := by
  simp only [isSupportedAction, Bool.or_eq_false_iff, decide_eq_false_iff_not] at h
  obtain ⟨⟨⟨⟨⟨⟨⟨⟨⟨⟨⟨h1, h2⟩, h3⟩, h4⟩, h5⟩, h6⟩, h7⟩, h8⟩, h9⟩, h10⟩, h11⟩, h12⟩ := h
  simp [expandOne, h1, h2, h3, h4, h5, h6, h7, h8, h9, h10, h11, h12]

theorem expandToggle_ok_of_shape (a : List (Option ActionRec))
    (hwf : toggleShapeWF a = true) (hne : a.isEmpty = false) :
    ∃ vo, expandToggle a = GoRes.ok vo := by
  cases a with
  | nil => simp at hne
  | cons x xs =>
      cases x with
      | none => exact ⟨none, rfl⟩
      | some ac =>
          simp only [toggleShapeWF, List.head?_cons] at hwf
          rcases hlkE : lk "enabled" ac with _ | v
          · rw [hlkE] at hwf
            simp at hwf
          · cases v with
            | sBool b =>
                cases b with
                | true =>
                    exact ⟨some (expandAction (some ac :: xs) []), by
                      simp [expandToggle, hlkE]⟩
                | false => exact ⟨none, by simp [expandToggle, hlkE]⟩
            | sInt n => rw [hlkE] at hwf; simp at hwf
            | sStr s => rw [hlkE] at hwf; simp at hwf
            | sNull => rw [hlkE] at hwf; simp at hwf
            | sOther g => rw [hlkE] at hwf; simp at hwf

theorem expandOne_ok_of_supported (k : String) (a : List (Option ActionRec))
    (hsup : isSupportedAction k = true)
    (hwf : entryShapeWF (k, PVal.pList a) = true) (hne : a.isEmpty = false) :
    ∃ vo, expandOne k a = GoRes.ok vo := by
  by_cases h1 : k = "allocate"
  · subst h1
    exact ⟨_, rfl⟩
  by_cases h2 : k = "delete"
  · subst h2
    exact ⟨_, rfl⟩
  by_cases h3 : k = "forcemerge"
  · subst h3
    exact ⟨_, rfl⟩
  by_cases h4 : k = "freeze"
  · subst h4
    have hwf' : toggleShapeWF a = true := by
      simpa [entryShapeWF, isToggleName] using hwf
    obtain ⟨vo, hvo⟩ := expandToggle_ok_of_shape a hwf' hne
    exact ⟨vo, by simp [expandOne, hvo]⟩
  by_cases h5 : k = "migrate"
  · subst h5
    exact ⟨_, rfl⟩
  by_cases h6 : k = "readonly"
  · subst h6
    have hwf' : toggleShapeWF a = true := by
      simpa [entryShapeWF, isToggleName] using hwf
    obtain ⟨vo, hvo⟩ := expandToggle_ok_of_shape a hwf' hne
    exact ⟨vo, by simp [expandOne, hvo]⟩
  by_cases h7 : k = "rollover"
  · subst h7
    exact ⟨_, rfl⟩
  by_cases h8 : k = "searchable_snapshot"
  · subst h8
    exact ⟨_, rfl⟩
  by_cases h9 : k = "set_priority"
  · subst h9
    exact ⟨_, rfl⟩
  by_cases h10 : k = "shrink"
  · subst h10
    exact ⟨_, rfl⟩
  by_cases h11 : k = "unfollow"
  · subst h11
    have hwf' : toggleShapeWF a = true := by
      simpa [entryShapeWF, isToggleName] using hwf
    obtain ⟨vo, hvo⟩ := expandToggle_ok_of_shape a hwf' hne
    exact ⟨vo, by simp [expandOne, hvo]⟩
  by_cases h12 : k = "wait_for_snapshot"
  · subst h12
    exact ⟨_, rfl⟩
  exact absurd hsup (by simp [isSupportedAction, h1, h2, h3, h4, h5, h6, h7, h8, h9,
    h10, h11, h12])

theorem expandActionsLoop_shapeWF (l : List (String × PVal))
    (hwf : l.all entryShapeWF = true) :
    (hasUnknownEntry l = true →
      ∃ nm, isSupportedAction nm = false ∧
        expandActionsLoop l = GoRes.err [unknownActionDiag nm]) ∧
    (hasUnknownEntry l = false → ∃ acts, expandActionsLoop l = GoRes.ok acts) := by
  induction l with
  | nil =>
      refine ⟨fun h => by simp [hasUnknownEntry] at h, fun _ => ⟨[], rfl⟩⟩
  | cons e rest ih =>
      obtain ⟨k, v⟩ := e
      rw [List.all_cons, Bool.and_eq_true] at hwf
      obtain ⟨hwfe, hwfr⟩ := hwf
      have ihr := ih hwfr
      cases v with
      | pStr s => simp [entryShapeWF] at hwfe
      | pList a =>
          by_cases hemp : a.isEmpty
          · have ha : a = [] := List.isEmpty_iff.mp hemp
            subst ha
            have hstep : expandActionsLoop ((k, PVal.pList []) :: rest)
                = expandActionsLoop rest := by
              simp [expandActionsLoop]
            have hany : hasUnknownEntry ((k, PVal.pList []) :: rest)
                = hasUnknownEntry rest := by
              simp [hasUnknownEntry]
            rw [hstep, hany]
            exact ihr
          · have hne : a.isEmpty = false := by simpa using hemp
            have hlen : a.length > 0 := by
              cases a with
              | nil => simp at hne
              | cons x xs => simp
            by_cases hsup : isSupportedAction k
            · obtain ⟨vo, hvo⟩ := expandOne_ok_of_supported k a hsup hwfe hne
              have hany : hasUnknownEntry ((k, PVal.pList a) :: rest)
                  = hasUnknownEntry rest := by
                simp [hasUnknownEntry, hsup]
              rw [hany]
              constructor
              · intro h
                obtain ⟨nm, hnm, herr⟩ := ihr.1 h
                refine ⟨nm, hnm, ?_⟩
                cases vo with
                | none => simp [expandActionsLoop, if_pos hlen, hvo, herr]
                | some rec => simp [expandActionsLoop, if_pos hlen, hvo, herr]
              · intro h
                obtain ⟨acts, hacts⟩ := ihr.2 h
                cases vo with
                | none => exact ⟨acts, by simp [expandActionsLoop, if_pos hlen, hvo, hacts]⟩
                | some rec =>
                    exact ⟨(k, rec) :: acts, by
                      simp [expandActionsLoop, if_pos hlen, hvo, hacts]⟩
            · have hsup' : isSupportedAction k = false := by simpa using hsup
              constructor
              · intro _
                exact ⟨k, hsup', by
                  simp [expandActionsLoop, if_pos hlen, expandOne_unknown k a hsup']⟩
              · intro h
                rw [hasUnknownEntry] at h
                simp [hsup', hne] at h

theorem expandPhase_shapeWF (p : PhaseRaw) (hwf : phaseShapeWF p = true) :
    (hasUnknownEntry (eraseKey "min_age" p) = true →
      ∃ nm, isSupportedAction nm = false ∧
        (expandPhase p).1 = GoRes.err [unknownActionDiag nm]) ∧
    (hasUnknownEntry (eraseKey "min_age" p) = false →
      ∃ ph, (expandPhase p).1 = GoRes.ok ph) := by
  rw [phaseShapeWF, Bool.and_eq_true] at hwf
  obtain ⟨hma, hall⟩ := hwf
  rcases hlkm : lk "min_age" p with _ | pv
  · rw [hlkm] at hma
    simp at hma
  cases pv with
  | pList l0 =>
      rw [hlkm] at hma
      simp at hma
  | pStr v =>
      have base := expandActionsLoop_shapeWF (eraseKey "min_age" p) hall
      constructor
      · intro h
        obtain ⟨nm, hnm, herr⟩ := base.1 h
        exact ⟨nm, hnm, by simp [expandPhase, hlkm, herr]⟩
      · intro h
        obtain ⟨acts, hacts⟩ := base.2 h
        exact ⟨{ minAge := v, actions := acts }, by simp [expandPhase, hlkm, hacts]⟩

theorem chain_err_of_unknown (L : List (String × Option PhaseRaw))
    (acc : List (String × Phase))
    (hwf : (L.all fun e => match e.2 with
      | some p => phaseShapeWF p
      | none => true) = true)
    (hunk : (L.any fun e => match e.2 with
      | some p => hasUnknownEntry (eraseKey "min_age" p)
      | none => false) = true) :
    ∃ nm, isSupportedAction nm = false ∧
      expandPhasesChain L acc = GoRes.err [unknownActionDiag nm] := by
  induction L generalizing acc with
  | nil => simp at hunk
  | cons e restL ih =>
      obtain ⟨nm₀, po⟩ := e
      rw [List.all_cons, Bool.and_eq_true] at hwf
      obtain ⟨hwfe, hwfr⟩ := hwf
      cases po with
      | none =>
          have hstep : expandPhasesChain ((nm₀, none) :: restL) acc
              = expandPhasesChain restL acc := by
            simp [expandPhasesChain, withPhase, GoRes.bind]
          rw [hstep]
          refine ih acc hwfr ?_
          simpa [List.any_cons] using hunk
      | some p =>
          have hpwf : phaseShapeWF p = true := by simpa using hwfe
          have base := expandPhase_shapeWF p hpwf
          by_cases hu : hasUnknownEntry (eraseKey "min_age" p)
          · obtain ⟨nm, hnm, herr⟩ := base.1 hu
            exact ⟨nm, hnm, by
              simp [expandPhasesChain, withPhase, herr, GoRes.bind]⟩
          · obtain ⟨ph, hok⟩ := base.2 (by simpa using hu)
            have hstep : expandPhasesChain ((nm₀, some p) :: restL) acc
                = expandPhasesChain restL (acc ++ [(nm₀, ph)]) := by
              simp [expandPhasesChain, withPhase, hok, GoRes.bind]
            rw [hstep]
            refine ih (acc ++ [(nm₀, ph)]) hwfr ?_
            simpa [List.any_cons, hu] using hunk

/-- C3: when some declared phase contains a configured action whose name is
not one of the twelve supported action kinds (and every declared phase is
well-shaped, as the schema guarantees), the whole expansion fails with the
validation diagnostic naming the offending action, no phase map is produced,
and `resourceIlmPut` returns the failure before any `PutLifecycle` network
call is made. -/
theorem expand_unknown_action_aborts_put (c : IlmConfig)
    (hwf : configPhasesWF c = true) (hunk : configHasUnknown c = true) :
    ∃ nm, isSupportedAction nm = false ∧
      expandIlmPolicy c = GoRes.err [unknownActionDiag nm] ∧
      resourceIlmPut c = PutOutcome.failed [unknownActionDiag nm] := by
  obtain ⟨nm, hnm, hchain⟩ := chain_err_of_unknown (namedConfigPhases c) [] hwf hunk
  refine ⟨nm, hnm, ?_, ?_⟩
  · simp [expandIlmPolicy, hchain, GoRes.bind]
  · simp [resourceIlmPut, expandIlmPolicy, hchain, GoRes.bind]

/-- Witness for C3 at a config whose hot phase configures the unsupported
action name `storage`. -/
theorem expand_unknown_action_aborts_put_witness :
    configPhasesWF
        { name := "p",
          hot := some [("min_age", PVal.pStr ""), ("storage", PVal.pList [some []])] }
      = true ∧
    configHasUnknown
        { name := "p",
          hot := some [("min_age", PVal.pStr ""), ("storage", PVal.pList [some []])] }
      = true ∧
    ∃ nm, isSupportedAction nm = false ∧
      expandIlmPolicy
          { name := "p",
            hot := some [("min_age", PVal.pStr ""), ("storage", PVal.pList [some []])] }
        = GoRes.err [unknownActionDiag nm] ∧
      resourceIlmPut
          { name := "p",
            hot := some [("min_age", PVal.pStr ""), ("storage", PVal.pList [some []])] }
        = PutOutcome.failed [unknownActionDiag nm] :=
  ⟨by decide, by decide,
    expand_unknown_action_aborts_put
      { name := "p",
        hot := some [("min_age", PVal.pStr ""), ("storage", PVal.pList [some []])] }
      (by decide) (by decide)⟩

/-! ### Round trip of canonical phases (C2): record-level lemmas -/

theorem lk_mem {β : Type} (m : List (String × β)) (k : String) (v : β)
    (h : lk k m = some v) : (k, v) ∈ m := by
  induction m with
  | nil => simp [lk] at h
  | cons e rest ih =>
      obtain ⟨k₁, v₁⟩ := e
      by_cases h1 : k₁ = k
      · subst h1
        rw [lk, if_pos rfl] at h
        obtain rfl : v₁ = v := by injection h
        exact List.mem_cons_self _ _
      · rw [lk, if_neg h1] at h
        exact List.mem_cons_of_mem _ (ih h)

theorem lk_append {β : Type} (m₁ m₂ : List (String × β)) (k : String) :
    lk k (m₁ ++ m₂) =
      match lk k m₁ with
      | some v => some v
      | none => lk k m₂ := by
  induction m₁ with
  | nil => simp [lk]
  | cons e rest ih =>
      obtain ⟨k₁, v₁⟩ := e
      by_cases h1 : k₁ = k
      · simp [lk, h1]
      · simp [lk, h1, ih]

theorem mapSet_append_of_lk_none {β : Type} (m : List (String × β)) (k : String)
    (v : β) (h : lk k m = none) : mapSet m k v = m ++ [(k, v)] := by
  induction m with
  | nil => rfl
  | cons e rest ih =>
      obtain ⟨k₁, v₁⟩ := e
      by_cases h1 : k₁ = k
      · rw [lk, if_pos h1] at h
        simp at h
      · rw [lk, if_neg h1] at h
        simp [mapSet, h1, ih h]

theorem recCanon_nil_shape (rec : ActionRec) (h : recCanon [] rec = true) :
    rec = [] := by
  cases rec with
  | nil => rfl
  | cons e rest => simp [recCanon] at h

theorem recCanon_keys_mem (ss : List String) (rec : ActionRec)
    (h : recCanon ss rec = true) : ∀ k ∈ keysOf rec, k ∈ ss := by
  induction ss generalizing rec with
  | nil =>
      rw [recCanon_nil_shape rec h]
      simp [keysOf]
  | cons s ss' ih =>
      cases rec with
      | nil => simp [keysOf]
      | cons e rest =>
          obtain ⟨k, v⟩ := e
          by_cases hks : k = s
          · rw [recCanon, if_pos hks, Bool.and_eq_true] at h
            intro k' hk'
            simp only [keysOf, List.map_cons, List.mem_cons] at hk'
            rcases hk' with hk' | hk'
            · exact List.mem_cons.mpr (Or.inl (hk'.trans hks))
            · exact List.mem_cons_of_mem s (ih rest h.2 k' hk')
          · rw [recCanon, if_neg hks] at h
            intro k' hk'
            exact List.mem_cons_of_mem s (ih ((k, v) :: rest) h k' hk')

theorem expandSettings_congr (ac₁ ac₂ : ActionRec) (ss : List String)
    (acc : ActionRec) (h : ∀ s ∈ ss, lk s ac₁ = lk s ac₂) :
    expandSettings ac₁ ss acc = expandSettings ac₂ ss acc := by
  induction ss generalizing acc with
  | nil => rfl
  | cons st ss' ih =>
      have hstep : settingStep ac₁ acc st = settingStep ac₂ acc st := by
        rw [settingStep, settingStep, h st (List.mem_cons_self st ss')]
      rw [expandSettings, expandSettings, hstep]
      exact ih _ (fun s hs => h s (List.mem_cons_of_mem st hs))

theorem expandSettings_canon (ss : List String) (rec acc : ActionRec)
    (hnd : ss.Nodup) (hca : recCanon ss rec = true)
    (hfresh : ∀ s ∈ ss, lk s acc = none) :
    expandSettings rec ss acc = acc ++ rec := by
  induction ss generalizing rec acc with
  | nil =>
      rw [recCanon_nil_shape rec hca]
      simp [expandSettings]
  | cons s ss' ih =>
      have hndss : ss'.Nodup := hnd.of_cons
      have hsnotin : s ∉ ss' := (List.nodup_cons.mp hnd).1
      cases rec with
      | nil =>
          have hstep : settingStep [] acc s = acc := by
            simp [settingStep, lk]
          rw [expandSettings, hstep,
            ih [] acc hndss (by simp [recCanon])
              (fun s' hs' => hfresh s' (List.mem_cons_of_mem s hs'))]
      | cons e rest =>
          obtain ⟨k, v⟩ := e
          by_cases hks : k = s
          · subst hks
            rw [recCanon, if_pos rfl, Bool.and_eq_true] at hca
            obtain ⟨hgv, hca'⟩ := hca
            have hlks : lk k ((k, v) :: rest) = some v := by simp [lk]
            have hnacc : lk k acc = none := hfresh k (List.mem_cons_self k ss')
            have hstep : settingStep ((k, v) :: rest) acc k = acc ++ [(k, v)] := by
              cases v with
              | sInt t =>
                  have ht : ¬(t = 0) := by simpa [goodVal] using hgv
                  simp [settingStep, hlks, ht, mapSet_append_of_lk_none acc k _ hnacc]
              | sStr t =>
                  have ht : ¬(t = "") := by simpa [goodVal] using hgv
                  simp [settingStep, hlks, ht, mapSet_append_of_lk_none acc k _ hnacc]
              | sBool t =>
                  simp [settingStep, hlks, mapSet_append_of_lk_none acc k _ hnacc]
              | sNull => simp [goodVal] at hgv
              | sOther g => simp [goodVal] at hgv
            have hcongr : expandSettings ((k, v) :: rest) ss' (acc ++ [(k, v)])
                = expandSettings rest ss' (acc ++ [(k, v)]) := by
              refine expandSettings_congr _ _ ss' _ (fun s' hs' => ?_)
              have hne : ¬(k = s') := fun he => hsnotin (he ▸ hs')
              rw [lk, if_neg hne]
            have hfresh' : ∀ s' ∈ ss', lk s' (acc ++ [(k, v)]) = none := by
              intro s' hs'
              rw [lk_append]
              have h1 : lk s' acc = none := hfresh s' (List.mem_cons_of_mem k hs')
              have hne : ¬(k = s') := fun he => hsnotin (he ▸ hs')
              rw [h1]
              simp [lk, hne]
            rw [expandSettings, hstep, hcongr, ih rest (acc ++ [(k, v)]) hndss hca' hfresh']
            simp
          · rw [recCanon, if_neg hks] at hca
            have hknotin : s ∉ keysOf ((k, v) :: rest) := by
              intro hmem
              exact hsnotin (recCanon_keys_mem ss' ((k, v) :: rest) hca s hmem)
            have hlks : lk s ((k, v) :: rest) = none :=
              lk_eq_none_of_not_mem _ s hknotin
            have hstep : settingStep ((k, v) :: rest) acc s = acc := by
              simp [settingStep, hlks]
            rw [expandSettings, hstep,
              ih ((k, v) :: rest) acc hndss hca
                (fun s' hs' => hfresh s' (List.mem_cons_of_mem s hs'))]

theorem canonEntry_shape (k : String) (v : PVal) (h : canonEntry (k, v) = true) :
    ∃ rec, v = PVal.pList [some rec] := by
  cases v with
  | pStr s => simp [canonEntry] at h
  | pList a =>
      cases a with
      | nil => simp [canonEntry] at h
      | cons x xs =>
          cases x with
          | none => simp [canonEntry] at h
          | some rec =>
              cases xs with
              | nil => exact ⟨rec, rfl⟩
              | cons y ys => simp [canonEntry] at h

theorem canonEntry_toggle (k : String) (rec : ActionRec)
    (htog : isToggleName k = true)
    (h : canonEntry (k, PVal.pList [some rec]) = true) :
    rec = [("enabled", SVal.sBool true)] := by
  rcases toggleName_cases k htog with h' | h' | h' <;> subst h' <;>
    simpa [canonEntry] using h

theorem expandOne_canonEntry (k : String) (rec : ActionRec)
    (hce : canonEntry (k, PVal.pList [some rec]) = true) :
    expandOne k [some rec] =
      GoRes.ok (some (if isToggleName k then [] else rec)) := by
  by_cases h1 : k = "allocate"
  · subst h1
    have hca := by simpa [canonEntry] using hce
    have he : expandOne "allocate" [some rec]
        = GoRes.ok (some (expandSettings rec
          ["number_of_replicas", "include", "exclude", "require"] [])) := rfl
    rw [he, expandSettings_canon _ rec [] (by decide) hca (fun s _ => rfl)]
    simp [isToggleName]
  by_cases h2 : k = "delete"
  · subst h2
    have hca := by simpa [canonEntry] using hce
    have he : expandOne "delete" [some rec]
        = GoRes.ok (some (expandSettings rec ["delete_searchable_snapshot"] [])) := rfl
    rw [he, expandSettings_canon _ rec [] (by decide) hca (fun s _ => rfl)]
    simp [isToggleName]
  by_cases h3 : k = "forcemerge"
  · subst h3
    have hca := by simpa [canonEntry] using hce
    have he : expandOne "forcemerge" [some rec]
        = GoRes.ok (some (expandSettings rec ["max_num_segments", "index_codec"] [])) := rfl
    rw [he, expandSettings_canon _ rec [] (by decide) hca (fun s _ => rfl)]
    simp [isToggleName]
  by_cases h4 : k = "freeze"
  · subst h4
    have hrec : rec = [("enabled", SVal.sBool true)] := by
      simpa [canonEntry] using hce
    subst hrec
    rfl
  by_cases h5 : k = "migrate"
  · subst h5
    have hca := by simpa [canonEntry] using hce
    have he : expandOne "migrate" [some rec]
        = GoRes.ok (some (expandSettings rec ["enabled"] [])) := rfl
    rw [he, expandSettings_canon _ rec [] (by decide) hca (fun s _ => rfl)]
    simp [isToggleName]
  by_cases h6 : k = "readonly"
  · subst h6
    have hrec : rec = [("enabled", SVal.sBool true)] := by
      simpa [canonEntry] using hce
    subst hrec
    rfl
  by_cases h7 : k = "rollover"
  · subst h7
    have hca := by simpa [canonEntry] using hce
    have he : expandOne "rollover" [some rec]
        = GoRes.ok (some (expandSettings rec
          ["max_age", "max_docs", "max_size", "max_primary_shard_size"] [])) := rfl
    rw [he, expandSettings_canon _ rec [] (by decide) hca (fun s _ => rfl)]
    simp [isToggleName]
  by_cases h8 : k = "searchable_snapshot"
  · subst h8
    have hca := by simpa [canonEntry] using hce
    have he : expandOne "searchable_snapshot" [some rec]
        = GoRes.ok (some (expandSettings rec
          ["snapshot_repository", "force_merge_index"] [])) := rfl
    rw [he, expandSettings_canon _ rec [] (by decide) hca (fun s _ => rfl)]
    simp [isToggleName]
  by_cases h9 : k = "set_priority"
  · subst h9
    have hca := by simpa [canonEntry] using hce
    have he : expandOne "set_priority" [some rec]
        = GoRes.ok (some (expandSettings rec ["priority"] [])) := rfl
    rw [he, expandSettings_canon _ rec [] (by decide) hca (fun s _ => rfl)]
    simp [isToggleName]
  by_cases h10 : k = "shrink"
  · subst h10
    have hca := by simpa [canonEntry] using hce
    have he : expandOne "shrink" [some rec]
        = GoRes.ok (some (expandSettings rec
          ["number_of_shards", "max_primary_shard_size"] [])) := rfl
    rw [he, expandSettings_canon _ rec [] (by decide) hca (fun s _ => rfl)]
    simp [isToggleName]
  by_cases h11 : k = "unfollow"
  · subst h11
    have hrec : rec = [("enabled", SVal.sBool true)] := by
      simpa [canonEntry] using hce
    subst hrec
    rfl
  by_cases h12 : k = "wait_for_snapshot"
  · subst h12
    have hca := by simpa [canonEntry] using hce
    have he : expandOne "wait_for_snapshot" [some rec]
        = GoRes.ok (some (expandSettings rec ["policy"] [])) := rfl
    rw [he, expandSettings_canon _ rec [] (by decide) hca (fun s _ => rfl)]
    simp [isToggleName]
  exact absurd hce (by
    simp [canonEntry, h1, h2, h3, h4, h5, h6, h7, h8, h9, h10, h11, h12])

theorem expandActionsLoop_canon (l : List (String × PVal))
    (hcan : l.all canonEntry = true) :
    expandActionsLoop l = GoRes.ok (l.map canonActRec) := by
  induction l with
  | nil => rfl
  | cons e rest ih =>
      obtain ⟨k, v⟩ := e
      rw [List.all_cons, Bool.and_eq_true] at hcan
      obtain ⟨hce, hcr⟩ := hcan
      obtain ⟨rec, rfl⟩ := canonEntry_shape k v hce
      have hone := expandOne_canonEntry k rec hce
      simp [expandActionsLoop, hone, ih hcr, canonActRec]

theorem expandPhase_canonical (p : PhaseRaw) (hc : canonicalPhase p = true) :
    (expandPhase p).1 =
      GoRes.ok
        { minAge := readMinAge p,
          actions := (eraseKey "min_age" p).map canonActRec } := by
  simp only [canonicalPhase, Bool.and_eq_true] at hc
  obtain ⟨⟨hnd, hma⟩, hall⟩ := hc
  rcases hlkm : lk "min_age" p with _ | pv
  · rw [hlkm] at hma
    simp at hma
  cases pv with
  | pList l0 =>
      rw [hlkm] at hma
      simp at hma
  | pStr v =>
      simp [expandPhase, hlkm, expandActionsLoop_canon _ hall, readMinAge]

theorem expandPhase_canonical_ok (p : PhaseRaw) (hc : canonicalPhase p = true) :
    (expandPhase p).1 = GoRes.ok (expandPhaseOk p) := by
  have h := expandPhase_canonical p hc
  rw [h]
  unfold expandPhaseOk
  rw [h]

theorem expandPhaseOk_canonical (p : PhaseRaw) (hc : canonicalPhase p = true) :
    expandPhaseOk p =
      { minAge := readMinAge p,
        actions := (eraseKey "min_age" p).map canonActRec } := by
  have h := expandPhase_canonical p hc
  unfold expandPhaseOk
  rw [h]

/-! ### Round trip of canonical phases (C2): flatten-side lemmas -/

theorem canonActRec_fst (e : String × PVal) : (canonActRec e).1 = e.1 := by
  obtain ⟨k, v⟩ := e
  cases v with
  | pStr s => rfl
  | pList a =>
      cases a with
      | nil => rfl
      | cons x xs =>
          cases x with
          | none => rfl
          | some rec => rfl

theorem keysOf_map_canonActRec (E : List (String × PVal)) :
    keysOf (E.map canonActRec) = keysOf E := by
  induction E with
  | nil => rfl
  | cons e E' ih =>
      simp only [keysOf, List.map_cons] at ih ⊢
      rw [canonActRec_fst, ih]

theorem lk_cons {β : Type} (k : String) (e : String × β) (rest : List (String × β)) :
    lk k (e :: rest) = if e.1 = k then some e.2 else lk k rest := by
  obtain ⟨k₁, v⟩ := e
  rfl

theorem lk_map_canonActRec (E : List (String × PVal)) (k : String) :
    lk k (E.map canonActRec) =
      Option.map (fun v => (canonActRec (k, v)).2) (lk k E) := by
  induction E with
  | nil => rfl
  | cons e E' ih =>
      obtain ⟨k₁, v₁⟩ := e
      by_cases h : k₁ = k
      · subst h
        simp [List.map_cons, lk_cons, canonActRec_fst]
      · simp [List.map_cons, lk_cons, canonActRec_fst, h, ih]

theorem lk_flattenToggles (nsm : PhaseRaw) (ef : ActionRec) (ts : List String)
    (phase : PhaseRaw) (k : String) :
    lk k (flattenToggles nsm ef ts phase) =
      if k ∈ ts ∧ existsAndNotEMpty k nsm = true then some (PVal.pList [some ef])
      else lk k phase := by
  induction ts generalizing phase with
  | nil => simp [flattenToggles]
  | cons t ts' ih =>
      by_cases hext : existsAndNotEMpty t nsm = true
      · have hstep : flattenToggles nsm ef (t :: ts') phase
            = flattenToggles nsm ef ts' (mapSet phase t (PVal.pList [some ef])) := by
          rw [flattenToggles, if_pos hext]
        rw [hstep, ih]
        by_cases h1 : k ∈ ts' ∧ existsAndNotEMpty k nsm = true
        · rw [if_pos h1, if_pos ⟨List.mem_cons_of_mem t h1.1, h1.2⟩]
        · rw [if_neg h1, lk_mapSet]
          by_cases h2 : t = k
          · rw [if_pos h2]
            have hck : existsAndNotEMpty k nsm = true := h2 ▸ hext
            rw [if_pos ⟨List.mem_cons.mpr (Or.inl h2.symm), hck⟩]
          · rw [if_neg h2]
            have h3 : ¬(k ∈ t :: ts' ∧ existsAndNotEMpty k nsm = true) := by
              intro hcon
              rcases List.mem_cons.mp hcon.1 with h4 | h4
              · exact h2 h4.symm
              · exact h1 ⟨h4, hcon.2⟩
            rw [if_neg h3]
      · have hstep : flattenToggles nsm ef (t :: ts') phase
            = flattenToggles nsm ef ts' phase := by
          rw [flattenToggles, if_neg hext]
        rw [hstep, ih]
        by_cases h1 : k ∈ ts' ∧ existsAndNotEMpty k nsm = true
        · rw [if_pos h1, if_pos ⟨List.mem_cons_of_mem t h1.1, h1.2⟩]
        · rw [if_neg h1]
          have h3 : ¬(k ∈ t :: ts' ∧ existsAndNotEMpty k nsm = true) := by
            intro hcon
            rcases List.mem_cons.mp hcon.1 with h4 | h4
            · exact hext (h4 ▸ hcon.2)
            · exact h1 ⟨h4, hcon.2⟩
          rw [if_neg h3]

theorem lk_flattenActions (ef : ActionRec) (l : List (String × ActionRec))
    (init : PhaseRaw) (hnd : (keysOf l).Nodup) (k : String) :
    lk k (flattenActions ef l init) =
      match lk k l with
      | some rec =>
          some (if isToggleName k then PVal.pList [some ef] else PVal.pList [some rec])
      | none => lk k init := by
  induction l generalizing init with
  | nil => simp [flattenActions, lk]
  | cons e rest ih =>
      obtain ⟨k₁, rec₁⟩ := e
      have hnd' : (k₁ :: keysOf rest).Nodup := hnd
      have hndrest : (keysOf rest).Nodup := hnd'.of_cons
      have hk₁notin : k₁ ∉ keysOf rest := (List.nodup_cons.mp hnd').1
      have hfold : flattenActions ef ((k₁, rec₁) :: rest) init
          = flattenActions ef rest
              (if isToggleName k₁ then mapSet init k₁ (PVal.pList [some ef])
                else mapSet init k₁ (PVal.pList [some rec₁])) := rfl
      rw [hfold, ih _ hndrest]
      by_cases h : k₁ = k
      · subst h
        have hrest : lk k₁ rest = none := lk_eq_none_of_not_mem rest k₁ hk₁notin
        rw [hrest]
        have hhd : lk k₁ ((k₁, rec₁) :: rest) = some rec₁ := by simp [lk]
        rw [hhd]
        by_cases htog : isToggleName k₁ = true
        · simp [htog, lk_mapSet]
        · have htog' : isToggleName k₁ = false := by simpa using htog
          simp [htog', lk_mapSet]
      · have hhd : lk k ((k₁, rec₁) :: rest) = lk k rest := by
          rw [lk, if_neg h]
        rw [hhd]
        rcases hkr : lk k rest with _ | rec
        · by_cases htog : isToggleName k₁ = true
          · simp [htog, lk_mapSet, h]
          · have htog' : isToggleName k₁ = false := by simpa using htog
            simp [htog', lk_mapSet, h]
        · rfl

/-- The per-phase heart of C2: for a canonical declared phase `x`,
the phase map produced by flattening the expansion of `x` against the
in-memory state `x` is, as terraform state, equal to `x`. -/
theorem phase_roundtrip_canonical (x : PhaseRaw) (hc : canonicalPhase x = true) :
    phaseStateEquiv (flattenPhase (expandPhaseOk x) (some x)) x = true := by
  have hc' := hc
  simp only [canonicalPhase, Bool.and_eq_true] at hc'
  obtain ⟨⟨hnd0, hma⟩, hall⟩ := hc'
  have hnd : (keysOf x).Nodup := of_decide_eq_true hnd0
  rcases hlkm : lk "min_age" x with _ | pv
  · rw [hlkm] at hma
    simp at hma
  cases pv with
  | pList l0 =>
      rw [hlkm] at hma
      simp at hma
  | pStr s =>
  have hreadx : readMinAge x = s := by simp [readMinAge, hlkm]
  have hok : expandPhaseOk x =
      { minAge := s,
        actions := (eraseKey "min_age" x).map canonActRec } := by
    rw [expandPhaseOk_canonical x hc, hreadx]
  rw [hok]
  have hkeysacts : keysOf ((eraseKey "min_age" x).map canonActRec)
      = keysOf (eraseKey "min_age" x) := keysOf_map_canonActRec _
  have hndE : (keysOf (eraseKey "min_age" x)).Nodup := keysOf_nodup_eraseKey x _ hnd
  have hndacts : (keysOf ((eraseKey "min_age" x).map canonActRec)).Nodup := by
    rw [hkeysacts]
    exact hndE
  have hflat : flattenPhase
      { minAge := s, actions := (eraseKey "min_age" x).map canonActRec } (some x)
      = flattenActions
          (enabledFinal
            { minAge := s, actions := (eraseKey "min_age" x).map canonActRec } x)
          ((eraseKey "min_age" x).map canonActRec)
          (if s ≠ "" then
            mapSet
              (flattenToggles x
                (enabledFinal
                  { minAge := s, actions := (eraseKey "min_age" x).map canonActRec } x)
                toggleList [])
              "min_age" (PVal.pStr s)
           else
            flattenToggles x
              (enabledFinal
                { minAge := s, actions := (eraseKey "min_age" x).map canonActRec } x)
              toggleList []) := rfl
  have hEx : ∀ k, ¬(k = "min_age") → lk k (eraseKey "min_age" x) = lk k x := by
    intro k hkma
    rw [lk_eraseKey, if_neg hkma]
  have KEY : ∀ k, ¬(k = "min_age") →
      lk k (flattenPhase
        { minAge := s, actions := (eraseKey "min_age" x).map canonActRec } (some x))
      = lk k x := by
    intro k hkma
    rw [hflat, lk_flattenActions _ _ _ hndacts k]
    rcases hkx : lk k x with _ | v
    · have h1 : lk k (eraseKey "min_age" x) = none := by rw [hEx k hkma, hkx]
      have h2 : lk k ((eraseKey "min_age" x).map canonActRec) = none := by
        rw [lk_map_canonActRec, h1]
        rfl
      simp only [h2]
      have h3 : ∀ m : PhaseRaw,
          lk k (if s ≠ "" then mapSet m "min_age" (PVal.pStr s) else m) = lk k m := by
        intro m
        by_cases hs : s = ""
        · simp [hs]
        · rw [if_pos hs, lk_mapSet, if_neg (fun h => hkma h.symm)]
      rw [h3, lk_flattenToggles]
      have hcond : ¬(k ∈ toggleList ∧ existsAndNotEMpty k x = true) := by
        intro hcon
        have h4 := hcon.2
        rw [existsAndNotEMpty, hkx] at h4
        simp at h4
      rw [if_neg hcond]
      rfl
    · have h1 : lk k (eraseKey "min_age" x) = some v := by rw [hEx k hkma, hkx]
      have hmemE : (k, v) ∈ eraseKey "min_age" x := lk_mem _ k v h1
      have hce : canonEntry (k, v) = true := by
        have hall' := List.all_eq_true.mp hall
        exact hall' (k, v) hmemE
      obtain ⟨rec, rfl⟩ := canonEntry_shape k v hce
      have h2 : lk k ((eraseKey "min_age" x).map canonActRec)
          = some ((canonActRec (k, PVal.pList [some rec])).2) := by
        rw [lk_map_canonActRec, h1]
        rfl
      simp only [h2]
      by_cases htog : isToggleName k = true
      · have hrec : rec = [("enabled", SVal.sBool true)] :=
          canonEntry_toggle k rec htog hce
        have hanytog : (((eraseKey "min_age" x).map canonActRec).any
            (fun e => isToggleName e.1)) = true := by
          refine List.any_eq_true.mpr
            ⟨canonActRec (k, PVal.pList [some rec]), List.mem_map_of_mem _ hmemE, ?_⟩
          rw [canonActRec_fst]
          exact htog
        have hef : enabledFinal
            { minAge := s, actions := (eraseKey "min_age" x).map canonActRec } x
            = [("enabled", SVal.sBool true)] := by
          simp [enabledFinal, hanytog]
        rw [if_pos htog, hef, hrec]
      · have htog' : isToggleName k = false := by simpa using htog
        rw [if_neg (by simp [htog'])]
        have h3 : (canonActRec (k, PVal.pList [some rec])).2 = rec := by
          simp [canonActRec, htog']
        rw [h3]
  have HMA : lk "min_age"
      (flattenPhase
        { minAge := s, actions := (eraseKey "min_age" x).map canonActRec } (some x))
      = if s ≠ "" then some (PVal.pStr s) else none := by
    rw [hflat, lk_flattenActions _ _ _ hndacts]
    have h1 : lk "min_age" (eraseKey "min_age" x) = none := by
      rw [lk_eraseKey]
      simp
    have h2 : lk "min_age" ((eraseKey "min_age" x).map canonActRec) = none := by
      rw [lk_map_canonActRec, h1]
      rfl
    simp only [h2]
    have hnotog : ¬("min_age" ∈ toggleList ∧ existsAndNotEMpty "min_age" x = true) := by
      intro hcon
      have h4 := hcon.1
      simp [toggleList] at h4
    by_cases hs : s = ""
    · have hns : ¬(s ≠ "") := fun h => h hs
      rw [if_neg hns, if_neg hns, lk_flattenToggles, if_neg hnotog]
      rfl
    · rw [if_pos hs, if_pos hs, lk_mapSet, if_pos rfl]
  rw [phaseStateEquiv, Bool.and_eq_true]
  constructor
  · apply decide_eq_true
    have hreadF : readMinAge (flattenPhase
        { minAge := s, actions := (eraseKey "min_age" x).map canonActRec } (some x))
        = s := by
      rw [readMinAge.eq_def, HMA]
      by_cases hs : s = ""
      · have hns : ¬(s ≠ "") := fun h => h hs
        rw [if_neg hns]
        exact hs.symm
      · rw [if_pos hs]
    rw [hreadF, hreadx]
  · apply List.all_eq_true.mpr
    intro k hk
    apply decide_eq_true
    have hkma : ¬(k = "min_age") := by
      rcases List.mem_append.mp hk with h | h
      · have h' := (List.mem_filter.mp h).2
        simpa using h'
      · have h' := (List.mem_filter.mp h).2
        simpa using h'
    exact KEY k hkma

theorem chain_ok_of_canonical (L : List (String × Option PhaseRaw))
    (acc : List (String × Phase))
    (hc : (L.all fun e => match e.2 with
      | some p => canonicalPhase p
      | none => true) = true) :
    expandPhasesChain L acc =
      GoRes.ok (acc ++ L.filterMap (fun e => e.2.map (fun p => (e.1, expandPhaseOk p)))) := by
  induction L generalizing acc with
  | nil => simp [expandPhasesChain]
  | cons e restL ih =>
      obtain ⟨nm, po⟩ := e
      rw [List.all_cons, Bool.and_eq_true] at hc
      obtain ⟨hce, hcr⟩ := hc
      cases po with
      | none =>
          have hstep : expandPhasesChain ((nm, none) :: restL) acc
              = expandPhasesChain restL acc := by
            simp [expandPhasesChain, withPhase, GoRes.bind]
          rw [hstep, ih acc hcr]
          simp [List.filterMap_cons]
      | some p =>
          have hcp : canonicalPhase p = true := by simpa using hce
          have hstep : expandPhasesChain ((nm, some p) :: restL) acc
              = expandPhasesChain restL (acc ++ [(nm, expandPhaseOk p)]) := by
            simp [expandPhasesChain, withPhase, expandPhase_canonical_ok p hcp, GoRes.bind]
          rw [hstep, ih _ hcr]
          simp [List.filterMap_cons]

theorem lk_filterMap_phases (L : List (String × Option PhaseRaw)) (k : String)
    (hnd : (keysOf L).Nodup) :
    lk k (L.filterMap (fun e => e.2.map (fun p => (e.1, expandPhaseOk p)))) =
      match lk k L with
      | some (some p) => some (expandPhaseOk p)
      | some none => none
      | none => none := by
  induction L with
  | nil => rfl
  | cons e restL ih =>
      obtain ⟨nm, po⟩ := e
      have hnd' : (nm :: keysOf restL).Nodup := hnd
      have hndrest : (keysOf restL).Nodup := hnd'.of_cons
      have hnmnotin : nm ∉ keysOf restL := (List.nodup_cons.mp hnd').1
      cases po with
      | none =>
          have hfm : ((nm, (none : Option PhaseRaw)) :: restL).filterMap
              (fun e => e.2.map (fun p => (e.1, expandPhaseOk p)))
              = restL.filterMap (fun e => e.2.map (fun p => (e.1, expandPhaseOk p))) := by
            simp [List.filterMap_cons]
          rw [hfm, ih hndrest]
          by_cases h : nm = k
          · subst h
            have hrest : lk nm restL = none := lk_eq_none_of_not_mem restL nm hnmnotin
            simp [lk_cons, hrest]
          · simp [lk_cons, h]
      | some p =>
          have hfm : ((nm, some p) :: restL).filterMap
              (fun e => e.2.map (fun p => (e.1, expandPhaseOk p)))
              = (nm, expandPhaseOk p) ::
                restL.filterMap (fun e => e.2.map (fun p => (e.1, expandPhaseOk p))) := by
            simp [List.filterMap_cons]
          rw [hfm]
          by_cases h : nm = k
          · subst h
            simp [lk_cons]
          · simp [lk_cons, h, ih hndrest]

/-- C2: for every declarative policy tree built from valid (canonical)
phase/action combinations containing no disabled toggle action, expanding
the declared config succeeds and flattening each phase of the expanded
policy against the declared state reproduces the declared tree: every
declared phase comes back equal as terraform state, and no phase appears
that was not declared. -/
theorem flatten_expand_roundtrip (c : IlmConfig) (hc : configCanonical c = true) :
    ∃ P, expandIlmPolicy c = GoRes.ok P ∧
      (∀ nm p, lk nm (namedConfigPhases c) = some (some p) →
        ∃ ph, lk nm P.phases = some ph ∧
          phaseStateEquiv (flattenPhase ph (some p)) p = true) ∧
      (∀ nm, lk nm (namedConfigPhases c) = some none → lk nm P.phases = none) := by
  have hc' : ((namedConfigPhases c).all fun e => match e.2 with
      | some p => canonicalPhase p
      | none => true) = true := hc
  have hchain := chain_ok_of_canonical (namedConfigPhases c) [] hc'
  have hndL : (keysOf (namedConfigPhases c)).Nodup := by
    show (["hot", "warm", "cold", "frozen", "delete"] : List String).Nodup
    decide
  refine ⟨{ name := c.name, metadata := c.metadata,
            phases := (namedConfigPhases c).filterMap
              (fun e => e.2.map (fun p => (e.1, expandPhaseOk p))) }, ?_, ?_, ?_⟩
  · rw [expandIlmPolicy, hchain]
    simp [GoRes.bind]
  · intro nm p hl
    have hlkP := lk_filterMap_phases (namedConfigPhases c) nm hndL
    simp only [hl] at hlkP
    refine ⟨expandPhaseOk p, hlkP, ?_⟩
    have hmem : (nm, some p) ∈ namedConfigPhases c := lk_mem _ nm (some p) hl
    have hcp : canonicalPhase p = true := by
      have h' := List.all_eq_true.mp hc' (nm, some p) hmem
      simpa using h'
    exact phase_roundtrip_canonical p hcp
  · intro nm hl
    have hlkP := lk_filterMap_phases (namedConfigPhases c) nm hndL
    simp only [hl] at hlkP
    exact hlkP

/-- Witness for C2 at a canonical config declaring a hot phase with
`min_age`, a rollover action and an enabled `readonly` toggle. -/
theorem flatten_expand_roundtrip_witness :
    configCanonical roundtripConfig = true ∧
    ∃ P, expandIlmPolicy roundtripConfig = GoRes.ok P ∧
      (∀ nm p, lk nm (namedConfigPhases roundtripConfig) = some (some p) →
        ∃ ph, lk nm P.phases = some ph ∧
          phaseStateEquiv (flattenPhase ph (some p)) p = true) ∧
      (∀ nm, lk nm (namedConfigPhases roundtripConfig) = some none →
        lk nm P.phases = none) :=
  ⟨by decide, flatten_expand_roundtrip roundtripConfig (by decide)⟩

end Elasticstack
